import Mathlib

/-!
# MonoSAT theory layer: at-most-one theory and Floyd-Warshall reachability

A shallow embedding of `src/monosat/amo/AMOTheory.h`, `graph/FloydWarshall.h` and the
winding functions of `geometry/GeometryTypes.h`.

Conventions of the embedding:

* a C++ member function becomes a Lean function from the state before the call to the
  state after it; a reference parameter that the function writes (`vec<Lit> & conflict`)
  is passed in and returned;
* `assert(e)` aborts the run when `e` is false: fallible functions return `Option`, and
  `none` stands for a failed assertion (or an access outside a vector);
* the solver `S` a theory points to is an external collaborator; it is threaded through
  every call as a value that the theory reads (`value`, `level`, `decisionLevel`) and on
  which its calls (`enqueue`, `addClause`, ...) are recorded in order.
-/

namespace Monosat

/-! ## Solver types -/

/-- Modelled from the spec: `Var` of `monosat/core/SolverTypes.h` (not among the sources),
"an integer identifier". -/
abbrev Var := Int

/-- Modelled from the spec: the sentinel `var_Undef` of `SolverTypes.h`: no variable. -/
def var_Undef : Var := -1

/-- Modelled from the spec: `Lit` of `SolverTypes.h`, "a variable plus a polarity";
`sign = true` is the negated literal. -/
structure Lit where
  var : Var
  sign : Bool
deriving DecidableEq, Repr

/-- Modelled from the spec: `mkLit(var, sign)` of `SolverTypes.h`. -/
def mkLit (v : Var) (sign : Bool) : Lit := ⟨v, sign⟩

/-- Modelled from the spec: `operator ~` on literals, the literal of opposite polarity. -/
def Lit.neg (p : Lit) : Lit := ⟨p.var, !p.sign⟩

/-- Modelled from the spec: the sentinel `lit_Undef` of `SolverTypes.h`, the positive
literal of `var_Undef`. -/
def lit_Undef : Lit := ⟨var_Undef, false⟩

/-- Modelled from the spec: the lifted boolean `lbool` of `SolverTypes.h`. -/
inductive lbool where
  | l_True
  | l_False
  | l_Undef
deriving DecidableEq, Repr

/-- Modelled from the spec: `lbool ^ bool`, the value of a literal from the value of its
variable. -/
def lbool.xor (b : lbool) (s : Bool) : lbool :=
  match b, s with
  | lbool.l_True, true => lbool.l_False
  | lbool.l_False, true => lbool.l_True
  | b, _ => b

/-- Modelled from the spec: `CRef`, the type of a reason marker (a token that only
identifies the rule of a propagation). -/
abbrev CRef := Nat

/-- Modelled from the spec: the boolean search core (`Solver`, not among the sources) as a
theory sees it. `assigns`, `level` and `decision_level` are what the theory reads; the other
fields record, in call order, what the theory asked of the core. -/
structure Solver where
  /-- current value of every variable -/
  assigns : Var → lbool
  /-- decision level at which a variable was assigned -/
  level : Var → Int
  /-- current decision level, `decisionLevel()` -/
  decision_level : Int
  /-- the `enqueue(p, from)` calls: literals forced on the trail with their reason marker -/
  enqueued : List (Lit × CRef)
  /-- the `addClause(a, b)` calls -/
  clauses : List (List Lit)
  /-- number of `setTheorySatisfied(this)` calls -/
  satisfied_calls : Nat
  /-- number of `theoryPropagated(this)` calls -/
  propagated_calls : Nat

/-- `S->value(Var)`. -/
def Solver.valueVar (S : Solver) (v : Var) : lbool := S.assigns v

/-- `S->value(Lit)`. -/
def Solver.value (S : Solver) (p : Lit) : lbool := (S.assigns p.var).xor p.sign

/-- `S->decisionLevel()`. -/
def Solver.decisionLevel (S : Solver) : Int := S.decision_level

/-- `S->enqueue(p, from)`: the core is asked to put `p` on the trail with reason `r`. -/
def Solver.enqueue (S : Solver) (p : Lit) (r : CRef) : Solver :=
  { S with enqueued := S.enqueued ++ [(p, r)] }

/-- `S->addClause(a, b)`. -/
def Solver.addClause (S : Solver) (a b : Lit) : Solver :=
  { S with clauses := S.clauses ++ [[a, b]] }

/-- `S->setTheorySatisfied(this)`. -/
def Solver.setTheorySatisfied (S : Solver) : Solver :=
  { S with satisfied_calls := S.satisfied_calls + 1 }

/-- `S->theoryPropagated(this)`. -/
def Solver.theoryPropagated (S : Solver) : Solver :=
  { S with propagated_calls := S.propagated_calls + 1 }

/-- The test `S->value(l) == l_False && S->level(var(l)) == 0` of lines 82 and 190: `l` is
false at decision level 0. -/
def Solver.constFalse (S : Solver) (l : Lit) : Bool :=
  decide (S.value l = lbool.l_False ∧ S.level l.var = 0)

/-- The test `S->value(l) == l_True && S->level(var(l)) == 0` of lines 84 and 192: `l` is
true at decision level 0. -/
def Solver.constTrue (S : Solver) (l : Lit) : Bool :=
  decide (S.value l = lbool.l_True ∧ S.level l.var = 0)

/-- The global options of `monosat/core/Config.h` (not among the sources) that the
at-most-one theory reads. -/
structure Options where
  opt_amo_eager_prop : Bool
  opt_clausify_amo : Int
  opt_verb : Int

/-! ## `AMOTheory` -/

/-- The data members of `class AMOTheory` (`propagationtime`, a `double` that no member
function writes, is left out). -/
structure AMOTheory where
  theory_index : Int
  assign_false_reason : CRef
  amo : List Var
  tmp_clause : List Lit
  stats_propagations : Int
  stats_propagations_skipped : Int
  stats_shrink_removed : Int
  stats_reasons : Int
  stats_conflicts : Int
  true_var : Var
  conflict_var : Var
  needs_propagation : Bool
  clausified : Bool
deriving DecidableEq, Repr

/-- One round of the first loop of `clausify_amo` (lines 80-95), from the literals still to
visit, the `set` built so far and `constant_true_lit`. `Except.error (c, l)` is the early
exit of line 89-90 with the two literals of the clause added there. -/
def clausify_scan (S : Solver) : List Lit → List Lit → Lit → Except (Lit × Lit) (List Lit × Lit)
  | [], set, ctl => Except.ok (set, ctl)
  | l :: rest, set, ctl =>
    if S.constFalse l then
      clausify_scan S rest set ctl
    else if S.constTrue l then
      if ctl = lit_Undef then
        clausify_scan S rest set l
      else
        Except.error (ctl, l)
    else
      clausify_scan S rest (set ++ [l]) ctl

/-- The inner loop of lines 99-101 for a fixed `i`: `x` is `set[i]` and the list holds
`set[i+1], ..., set[size-1]`. -/
def addPairsWith (S : Solver) (x : Lit) : List Lit → Solver
  | [] => S
  | y :: ys => addPairsWith (S.addClause x.neg y.neg) x ys

/-- The nested loops of lines 98-102 over `set[i], ..., set[size-1]`. -/
def addPairs (S : Solver) : List Lit → Solver
  | [] => S
  | x :: xs => addPairs (addPairsWith S x xs) xs

/-- The loop of lines 105-108. -/
def addAgainst (S : Solver) (ctl : Lit) : List Lit → Solver
  | [] => S
  | s :: ss => addAgainst (S.addClause ctl.neg s.neg) ctl ss

/-- `AMOTheory::clausify_amo` (lines 74-111). -/
def clausify_amo (S : Solver) (lits : List Lit) : Option (Solver × Bool) :=
  if S.decisionLevel = 0 then
    match clausify_scan S lits [] lit_Undef with
    | Except.error (c, l) => some (S.addClause c.neg l.neg, false)
    | Except.ok (set, ctl) =>
      if ctl = lit_Undef then
        some (addPairs S set, true)
      else
        some (addAgainst S ctl set, true)
  else
    none

/-- `AMOTheory::undecideTheory` (lines 136-145). -/
def undecideTheory (T : AMOTheory) (l : Lit) : Option AMOTheory :=
  let first : Option AMOTheory :=
    if l.var = T.true_var then
      let T1 := { T with needs_propagation := false, true_var := var_Undef }
      if T1.conflict_var = var_Undef then some T1 else none
    else
      some T
  first.bind fun T1 =>
    if l.var = T1.conflict_var then
      some { T1 with conflict_var := var_Undef }
    else
      some T1

/-- The loop `for (Var v : amo) if (v != true_var) S->enqueue(mkLit(v, true),
assign_false_reason)` of lines 157-161 and 229-233. -/
def enqueueOthers (true_var : Var) (r : CRef) (S : Solver) : List Var → Solver
  | [] => S
  | v :: vs =>
    if v ≠ true_var then
      enqueueOthers true_var r (S.enqueue (mkLit v true) r) vs
    else
      enqueueOthers true_var r S vs

/-- `AMOTheory::enqueueTheory` (lines 146-175). -/
def enqueueTheory (o : Options) (S : Solver) (T : AMOTheory) (l : Lit) :
    Option (Solver × AMOTheory) :=
  if T.clausified then
    some (S, T)
  else if T.conflict_var = var_Undef then
    if !l.sign then
      if T.true_var = var_Undef then
        let T1 := { T with true_var := l.var }
        if !T1.needs_propagation then
          if o.opt_amo_eager_prop then
            let T2 := { T1 with stats_propagations := T1.stats_propagations + 1 }
            some (enqueueOthers T2.true_var T2.assign_false_reason S T2.amo, T2)
          else
            some (S, { T1 with needs_propagation := true })
        else
          none
      else if l.var = T.true_var then
        some (S, T)
      else
        some (S, { T with conflict_var := l.var })
    else
      some (S, T)
  else
    some (S, T)

/-- The loop of lines 188-199 of `propagateTheory`, from the members still to visit: the
members kept (written back at `amo[j++]`), `has_true_lit` and `n_nonconstants`. -/
def shrinkLoop (S : Solver) : List Var → List Var → Bool → Int → List Var × Bool × Int
  | [], kept, has_true_lit, n => (kept, has_true_lit, n)
  | v :: rest, kept, has_true_lit, n =>
    let l := mkLit v false
    if S.constFalse l then
      shrinkLoop S rest kept has_true_lit n
    else if S.constTrue l then
      shrinkLoop S rest (kept ++ [l.var]) true n
    else
      shrinkLoop S rest (kept ++ [l.var]) has_true_lit (n + 1)

/-- Lines 215-235 of `propagateTheory`: the part that runs when the call did not clausify. -/
def propagateTail (o : Options) (S : Solver) (T : AMOTheory) (conflict : List Lit) :
    Option (Solver × AMOTheory × List Lit × Bool) :=
  if T.conflict_var ≠ var_Undef then
    if T.true_var ≠ var_Undef then
      if T.true_var ≠ T.conflict_var then
        some (S, { T with needs_propagation := false, stats_conflicts := T.stats_conflicts + 1 },
          [mkLit T.conflict_var true, mkLit T.true_var true], false)
      else
        none
    else
      none
  else if T.true_var ≠ var_Undef ∧ T.needs_propagation then
    if !o.opt_amo_eager_prop then
      let T1 := { T with stats_propagations := T.stats_propagations + 1,
                         needs_propagation := false }
      some (enqueueOthers T1.true_var T1.assign_false_reason S T1.amo, T1, conflict, true)
    else
      none
  else
    some (S, T, conflict, true)

/-- `AMOTheory::propagateTheory` (lines 177-236); the result is the solver, the theory, the
`conflict` vector and the value returned. -/
def propagateTheory (o : Options) (S : Solver) (T : AMOTheory) (conflict : List Lit) :
    Option (Solver × AMOTheory × List Lit × Bool) :=
  if T.clausified then
    some (S.setTheorySatisfied, T, conflict, true)
  else
    let S1 := S.theoryPropagated
    if S1.decisionLevel = 0 then
      let r := shrinkLoop S1 T.amo [] false 0
      let T1 := { T with amo := r.1 }
      if r.2.1 ∨ T1.amo.length = 0 ∨ (T1.amo.length : Int) ≤ o.opt_clausify_amo then
        let T2 := { T1 with clausified := true }
        let amoLits := T2.amo.map (fun v => mkLit v false)
        match clausify_amo S1.setTheorySatisfied amoLits with
        | some (S2, b) => some (S2, T2, conflict, b)
        | none => none
      else
        propagateTail o S1 T1 conflict
    else
      propagateTail o S1 T conflict

/-- `AMOTheory::buildReason` (lines 254-266). -/
def buildReason (S : Solver) (T : AMOTheory) (p : Lit) (reason : List Lit) (reason_marker : CRef) :
    Option (AMOTheory × List Lit) :=
  let T1 := { T with stats_reasons := T.stats_reasons + 1 }
  if reason_marker = T1.assign_false_reason then
    if p.var ≠ T1.true_var then
      if p.sign ∧ S.value p = lbool.l_True ∧ S.valueVar T1.true_var = lbool.l_True then
        some (T1, reason ++ [mkLit p.var true, mkLit T1.true_var true])
      else
        none
    else
      none
  else
    none

/-- The state of an `AMOTheory` after its constructor, with reason marker `marker` obtained
from `S->newReasonMarker(this)`, and one `addVar(v)` for each `v` of `vars` in order
(lines 36-57, 63-69 and 115-118). -/
def AMOTheory.fresh (marker : CRef) (vars : List Var) : AMOTheory :=
  { theory_index := -1, assign_false_reason := marker, amo := vars, tmp_clause := [],
    stats_propagations := 0, stats_propagations_skipped := 0, stats_shrink_removed := 0,
    stats_reasons := 0, stats_conflicts := 0, true_var := var_Undef, conflict_var := var_Undef,
    needs_propagation := false, clausified := false }

/-- A solver at decision level `lvl` whose trail holds exactly the level-0 assignments listed
in `units` (variable, value), and of which no theory has asked anything yet. -/
def Solver.atLevel (lvl : Int) (units : List (Var × Bool)) : Solver :=
  { assigns := fun v =>
      match units.lookup v with
      | some true => lbool.l_True
      | some false => lbool.l_False
      | none => lbool.l_Undef,
    level := fun _ => 0, decision_level := lvl, enqueued := [], clauses := [],
    satisfied_calls := 0, propagated_calls := 0 }

/-- The state of the set {1, 2, 3} in which 1 is recorded as `true_var` and 2 as
`conflict_var`. -/
def AMOTheory.conflicting : AMOTheory :=
  { AMOTheory.fresh 7 [1, 2, 3] with true_var := 1, conflict_var := 2 }

/-- The state of the set {1, 2, 3} in which 1 is recorded as `true_var` and the forcing of
the other members is pending. -/
def AMOTheory.pending : AMOTheory :=
  { AMOTheory.fresh 7 [1, 2, 3] with true_var := 1, needs_propagation := true }

/-! ## `FloydWarshall` -/

/-- Modelled from the spec: an edge of the mutable graph (`DynamicGraph.h` is not among the
sources), "edges (from, to, enabled flag)", with the edge identifier. -/
structure Edge where
  from_ : Int
  to_ : Int
  id : Int
  enabled : Bool
deriving DecidableEq, Repr

/-- Modelled from the spec: the mutable graph as `FloydWarshall` reads it: node count, all
edges, the counters of modifications, additions and deletions, the history of edge-state
changes (edge identifier, enabled or not) and the count of history clears. -/
structure DynamicGraph where
  nodes : Int
  all_edges : List Edge
  modifications : Int
  additions : Int
  deletions : Int
  history : List (Int × Bool)
  historyclears : Int
deriving DecidableEq, Repr

/-- A `Status *`: the handle of a status sink owned by the client. -/
abbrev StatusRef := Nat

/-- One call `status->setReachable(u, reachable)` on the sink `status`. -/
structure StatusCall where
  status : StatusRef
  u : Int
  reachable : Bool
deriving DecidableEq, Repr

/-- The data members of `class FloydWarshall` that its member functions use, with those the
header uses without declaring them: `seen` and the `int` counters `stats_full_updates`,
`stats_skipped_updates`, `stats_num_skipable_deletions`; `iteration` is the function-local
static of `update`. The reference `g` is passed to every function instead. -/
structure FloydWarshall where
  last_modification : Int
  last_addition : Int
  last_deletion : Int
  history_qhead : Int
  last_history_clear : Int
  status : List StatusRef
  sources : List Int
  INF : Int
  q : List Int
  check : List Int
  reportPolarity : Int
  dist : List (List Int)
  next : List (List Int)
  seen : List Bool
  stats_full_updates : Int
  stats_skipped_updates : Int
  stats_num_skipable_deletions : Int
  iteration : Int
deriving DecidableEq, Repr

/-- `vec<T>::growTo(size)` of `mtl/Vec.h`: the vector is padded with default-constructed
elements `d` up to `size`; a vector that is long enough is left as it is. -/
def growTo {α : Type} (v : List α) (size : Int) (d : α) : List α :=
  v ++ List.replicate (size.toNat - v.length) d

/-- `v[i]` for an `int` index: `none` outside the vector. -/
def vecGet {α : Type} (v : List α) (i : Int) : Option α :=
  if 0 ≤ i then v.get? i.toNat else none

/-- `v[i] = x` for an `int` index: `none` outside the vector. -/
def vecSet {α : Type} (v : List α) (i : Int) (x : α) : Option (List α) :=
  if 0 ≤ i ∧ i.toNat < v.length then some (v.set i.toNat x) else none

/-- `t[i][j]`. -/
def tableGet (t : List (List Int)) (i j : Int) : Option Int :=
  (vecGet t i).bind fun row => vecGet row j

/-- `t[i][j] = x`. -/
def tableSet (t : List (List Int)) (i j : Int) (x : Int) : Option (List (List Int)) :=
  (vecGet t i).bind fun row => (vecSet row j x).bind fun row1 => vecSet t i row1

/-- The constructor (lines 54-65): whatever `_reportPolarity` is passed, the member
`reportPolarity` is initialised with 0. The vectors start empty (`status` is initialised
from a name `_status` that the header does not declare). -/
def FloydWarshall.new (_reportPolarity : Int) : FloydWarshall :=
  { last_modification := -1, last_addition := -1, last_deletion := -1, history_qhead := 0,
    last_history_clear := 0, status := [], sources := [], INF := 0, q := [], check := [],
    reportPolarity := 0, dist := [], next := [], seen := [], stats_full_updates := 0,
    stats_skipped_updates := 0, stats_num_skipable_deletions := 0, iteration := 0 }

/-- `FloydWarshall::addSource` (lines 68-75). -/
def FloydWarshall.addSource (fw : FloydWarshall) (s : Int) (_status : StatusRef) :
    Option FloydWarshall :=
  if ¬ s ∈ fw.sources then
    some { fw with sources := fw.sources ++ [s], status := fw.status ++ [_status],
                   last_modification := -1, last_addition := -1, last_deletion := -1 }
  else
    none

/-- The loops `for (i < dist.size()) rows[i].growTo(n)` of lines 92-93 and 96-97: `count` is
`dist.size()`; `none` when a row index is outside `rows`. -/
def growRows (rows : List (List Int)) (count : Nat) (n : Int) : Option (List (List Int)) :=
  if count ≤ rows.length then
    some ((rows.take count).map (fun row => growTo row n 0) ++ rows.drop count)
  else
    none

/-- `FloydWarshall::setNodes` (lines 85-98). -/
def FloydWarshall.setNodes (g : DynamicGraph) (fw : FloydWarshall) (n : Int) :
    Option FloydWarshall :=
  let seen1 := growTo fw.seen n false
  let INF1 := g.nodes + 1
  let dist1 := growTo fw.dist n []
  (growRows dist1 dist1.length n).bind fun dist2 =>
    let next1 := growTo fw.next n []
    (growRows next1 dist2.length n).bind fun next2 =>
      some { fw with seen := seen1, INF := INF1, dist := dist2, next := next2 }

/-- The body of the loop of lines 118-121 for one `i`. The statement `next[i]=-1` assigns
an `int` to a row of the table; it is read as setting every entry of row `i` to -1. -/
def resetNode (dn : List (List Int) × List (List Int)) (i : Nat) :
    Option (List (List Int) × List (List Int)) :=
  (vecGet dn.2 i).bind fun row =>
    (vecSet dn.2 i (row.map fun _ => -1)).bind fun next1 =>
      (tableSet dn.1 i i 0).bind fun dist1 => some (dist1, next1)

/-- The body of the loop of lines 123-127 for one edge: the unit distance is written for
every edge of `all_edges`; the edge is not asked whether it is enabled. -/
def seedEdge (dist : List (List Int)) (e : Edge) : Option (List (List Int)) :=
  tableSet dist e.from_ e.to_ 1

/-- The body of the loops of lines 131-139 for one pivot `k` and one pair `i`, `j`. -/
def relax (k : Int) (dn : List (List Int) × List (List Int)) (i j : Nat) :
    Option (List (List Int) × List (List Int)) :=
  (tableGet dn.1 i k).bind fun dik =>
    (tableGet dn.1 k j).bind fun dkj =>
      (tableGet dn.1 i j).bind fun dij =>
        let d := dik + dkj
        if d < dij then
          (tableSet dn.1 i j d).bind fun dist1 =>
            (tableSet dn.2 i j k).bind fun next1 => some (dist1, next1)
        else
          some dn

/-- The loops of lines 129-140 for one source `k`. -/
def relaxSource (nodes : Nat) (dn : List (List Int) × List (List Int)) (k : Int) :
    Option (List (List Int) × List (List Int)) :=
  (List.range nodes).foldlM
    (fun dn1 i => (List.range nodes).foldlM (fun dn2 j => relax k dn2 i j) dn1) dn

/-- The body of the loop of lines 143-149 for one source `s` (a node number, used as the
index into `status`) and one node `u`: the calls made are appended to `calls`. -/
def reportNode (fw : FloydWarshall) (s : Int) (calls : List StatusCall) (u : Nat) :
    Option (List StatusCall) :=
  (vecGet fw.seen u).bind fun seen_u =>
    if !seen_u ∧ fw.reportPolarity < 1 then
      (vecGet fw.status s).bind fun st => some (calls ++ [⟨st, u, false⟩])
    else if seen_u ∧ fw.reportPolarity > -1 then
      (vecGet fw.status s).bind fun st => some (calls ++ [⟨st, u, true⟩])
    else
      some calls

/-- The loops of lines 141-150. -/
def reportAll (nodes : Nat) (fw : FloydWarshall) : Option (List StatusCall) :=
  fw.sources.foldlM
    (fun calls s => (List.range nodes).foldlM (fun calls1 u => reportNode fw s calls1 u) calls) []

/-- `FloydWarshall::update` (lines 101-161): the state after the call and the calls made on
the status sinks, in order. The timing (`cpuTime`) is left out. -/
def FloydWarshall.update (g : DynamicGraph) (fw : FloydWarshall) :
    Option (FloydWarshall × List StatusCall) :=
  let fw1 := { fw with iteration := fw.iteration + 1,
                       stats_full_updates := fw.stats_full_updates + 1 }
  if fw1.last_modification > 0 ∧ g.modifications = fw1.last_modification then
    some ({ fw1 with stats_skipped_updates := fw1.stats_skipped_updates + 1 }, [])
  else
    let fw2 :=
      if fw1.last_deletion = g.deletions then
        { fw1 with stats_num_skipable_deletions := fw1.stats_num_skipable_deletions + 1 }
      else fw1
    (fw2.setNodes g g.nodes).bind fun fw3 =>
      let fw4 := { fw3 with q := [] }
      ((List.range g.nodes.toNat).foldlM resetNode (fw4.dist, fw4.next)).bind fun dn1 =>
        (g.all_edges.foldlM seedEdge dn1.1).bind fun dist2 =>
          (fw4.sources.foldlM (relaxSource g.nodes.toNat) (dist2, dn1.2)).bind fun dn3 =>
            let fw5 := { fw4 with dist := dn3.1, next := dn3.2 }
            (reportAll g.nodes.toNat fw5).bind fun calls =>
              some ({ fw5 with last_modification := g.modifications,
                               last_deletion := g.deletions,
                               last_addition := g.additions,
                               history_qhead := g.history.length,
                               last_history_clear := g.historyclears }, calls)

/-- `FloydWarshall::connected` (lines 218-225): the state after the call, the calls made on
the status sinks and the value returned. -/
def FloydWarshall.connected (g : DynamicGraph) (fw : FloydWarshall) (t : Int) :
    Option (FloydWarshall × List StatusCall × Bool) :=
  let r : Option (FloydWarshall × List StatusCall) :=
    if fw.last_modification ≠ g.modifications then fw.update g else some (fw, [])
  r.bind fun r1 => (vecGet r1.1.seen t).bind fun b => some (r1.1, r1.2, b)

/-- `FloydWarshall::distance` (lines 226-231). -/
def FloydWarshall.distance (g : DynamicGraph) (fw : FloydWarshall) (t : Int) :
    Option (FloydWarshall × List StatusCall × Int) :=
  (fw.connected g t).bind fun r =>
    if r.2.2 then some (r.1, r.2.1, 1) else some (r.1, r.2.1, r.1.INF)

/-- The graph with four nodes and the two enabled edges 0→1 and 1→2. -/
def DynamicGraph.chain : DynamicGraph :=
  { nodes := 4, all_edges := [⟨0, 1, 0, true⟩, ⟨1, 2, 1, true⟩], modifications := 6,
    additions := 6, deletions := 0, history := [(0, true), (1, true)], historyclears := 0 }

/-- `FloydWarshall::path` (lines 163-169), with `fuel` bounding the depth of the recursion:
the outer `none` is "the recursion is deeper than `fuel`", `some none` a failed assertion or
an access outside a table, `some (some p)` a return with the vector `p`. The second
recursive call is written `path(intermediate,to)` in the header; it is read with `path` as
its third argument. -/
def FloydWarshall.path (fw : FloydWarshall) : Nat → Int → Int → List Int →
    Option (Option (List Int))
  | 0, _, _, _ => none
  | fuel + 1, from_, to_, out =>
    match tableGet fw.dist from_ to_ with
    | none => some none
    | some d =>
      if d < fw.INF then
        match tableGet fw.next from_ to_ with
        | none => some none
        | some intermediate =>
          match fw.path fuel from_ intermediate out with
          | none => none
          | some none => some none
          | some (some out1) => fw.path fuel intermediate to_ (out1 ++ [intermediate])
      else
        some none

/-- The graph with two nodes whose only edge 0→1 is present but disabled. -/
def DynamicGraph.disabledEdge : DynamicGraph :=
  { nodes := 2, all_edges := [⟨0, 1, 0, false⟩], modifications := 3,
    additions := 3, deletions := 0, history := [], historyclears := 0 }

/-- The graph with two nodes and no edge, with the counters of `disabledEdge`. -/
def DynamicGraph.absentEdge : DynamicGraph :=
  { nodes := 2, all_edges := [], modifications := 3,
    additions := 3, deletions := 0, history := [], historyclears := 0 }

/-- The graph with six nodes and no edge. -/
def DynamicGraph.sixNodes : DynamicGraph :=
  { nodes := 6, all_edges := [], modifications := 6,
    additions := 6, deletions := 0, history := [], historyclears := 0 }

/-! ## Winding of a polygon (`GeometryTypes.h`) -/

/-- `Point<2,T>` (lines 104-113): the optional identifier and the two coordinates `x`, `y`
(the references to `vector[0]`, `vector[1]`). -/
structure Point2 (T : Type) where
  id : Int
  x : T
  y : T

/-- `cross2d` (lines 354-357). -/
def cross2d {T : Type} [LinearOrderedRing T] (A B : Point2 T) : T :=
  A.x * B.y - A.y * B.x

/-- `enum class Winding` (lines 359-361). -/
inductive Winding where
  | CLOCKWISE
  | COUNTER_CLOCKWISE
  | NEITHER
deriving DecidableEq, Repr

/-- The point `prev` of line 369: `i>0 ? points[i-1] : points.back()`. The default point is
only there for the accesses outside the list, which the loop does not make. -/
def prevPoint {T : Type} [LinearOrderedRing T] (points : List (Point2 T)) (i : Nat) : Point2 T :=
  if i > 0 then points.getD (i - 1) ⟨-1, 0, 0⟩ else points.getLastD ⟨-1, 0, 0⟩

/-- The value of `sum` after the loop of lines 368-373 of `computeWinding`: each round adds
the boolean `cross2d(prev,p)>0`, that is 1 or 0. -/
def windingSum {T : Type} [LinearOrderedRing T] (points : List (Point2 T)) : T :=
  (List.range points.length).foldl
    (fun sum i =>
      sum + (if cross2d (prevPoint points i) (points.getD i ⟨-1, 0, 0⟩) > 0 then 1 else 0))
    0

/-- `computeWinding` (lines 363-382); `none` stands for the end of the function reached
without a `return`. -/
def computeWinding {T : Type} [LinearOrderedRing T] (points : List (Point2 T)) :
    Option Winding :=
  let sum := windingSum points
  if sum > 0 then some Winding.CLOCKWISE
  else if sum < 0 then some Winding.COUNTER_CLOCKWISE
  else if sum = 0 then some Winding.NEITHER
  else none

/-- `isClockwise` (lines 383-386). -/
def isClockwise {T : Type} [LinearOrderedRing T] (points : List (Point2 T)) : Option Bool :=
  (computeWinding points).map fun w => decide (w ≠ Winding.COUNTER_CLOCKWISE)

/-! ## Runs of calls on the at-most-one theory -/

/-- One call of the boolean core on the theory: `enqueueTheory(l)`, `propagateTheory(conflict)`,
or `undecideTheory` for the literal on top of the trail, which is taken off. The solver is the
one the call finds. -/
inductive AMOCall where
  | enqueue (S : Solver) (l : Lit)
  | propagate (S : Solver) (conflict : List Lit)
  | undecide

/-- The theory state and the trail (most recent literal first) after a sequence of calls;
`none` when an assertion of `enqueueTheory`, `propagateTheory` or `undecideTheory` fails on
the way. A literal that is enqueued is put on the trail unless it is already on it (the
theory is then only told again, as lines 165-166 foresee). -/
def runCalls (o : Options) : AMOTheory → List Lit → List AMOCall → Option (AMOTheory × List Lit)
  | T, tr, [] => some (T, tr)
  | T, tr, AMOCall.enqueue S l :: cs =>
    (enqueueTheory o S T l).bind fun r => runCalls o r.2 (if l ∈ tr then tr else l :: tr) cs
  | T, tr, AMOCall.propagate S conflict :: cs =>
    (propagateTheory o S T conflict).bind fun r => runCalls o r.2.1 tr cs
  | T, [], AMOCall.undecide :: cs => runCalls o T [] cs
  | T, l :: tr, AMOCall.undecide :: cs =>
    (undecideTheory T l).bind fun T1 => runCalls o T1 tr cs

/-- The discipline of the trail for a sequence of calls, from the trail `tr`: a literal that
is enqueued is a literal of a variable (not of `var_Undef`), and it is either already on the
trail or a literal of a variable that has no literal on the trail; a literal is undone only
when the trail is not empty (it is then the most recent one). -/
def trailProtocol : List Lit → List AMOCall → Bool
  | _, [] => true
  | tr, AMOCall.enqueue _ l :: cs =>
    decide (l.var ≠ var_Undef) &&
      (decide (l ∈ tr) || tr.all (fun p => decide (p.var ≠ l.var))) &&
      trailProtocol (if l ∈ tr then tr else l :: tr) cs
  | tr, AMOCall.propagate _ _ :: cs => trailProtocol tr cs
  | [], AMOCall.undecide :: _ => false
  | _ :: tr, AMOCall.undecide :: cs => trailProtocol tr cs

/-- The invariant of the theory state `T` against the trail `tr` (most recent literal first):
the trail holds at most one literal per variable and none of `var_Undef`; a pending
propagation has a true variable and is only there in deferred mode; the literal of
`true_var` is on the trail; when `conflict_var` is set, `true_var` is set and different, and
the literal of `conflict_var` is on the trail above (more recent than) the literal of
`true_var`; and as long as the instance is not clausified, the positive literals on the trail
below the literal of `conflict_var` (on the whole trail when `conflict_var` is not set) are
literals of `true_var`. -/
def AMOInv (o : Options) (T : AMOTheory) (tr : List Lit) : Prop :=
  (tr.map Lit.var).Nodup ∧
  (T.needs_propagation = true → T.true_var ≠ var_Undef ∧ o.opt_amo_eager_prop = false) ∧
  (T.true_var ≠ var_Undef → mkLit T.true_var false ∈ tr) ∧
  (T.conflict_var ≠ var_Undef →
    T.true_var ≠ var_Undef ∧ T.true_var ≠ T.conflict_var ∧
      ∃ l1 l2, tr = l1 ++ mkLit T.conflict_var false :: l2 ∧ mkLit T.true_var false ∈ l2 ∧
        (T.clausified = false → ∀ p ∈ l2, p.sign = false → p.var = T.true_var)) ∧
  (∀ p ∈ tr, p.var ≠ var_Undef) ∧
  (T.clausified = false → T.conflict_var = var_Undef →
    ∀ p ∈ tr, p.sign = false → p.var = T.true_var)

/-! ## Truth of literals and clauses under an assignment -/

/-- Truth of a literal under a total assignment of the variables. -/
def Lit.holds (τ : Var → Bool) (p : Lit) : Bool := τ p.var != p.sign

/-- Truth of a clause (a disjunction of literals). -/
def clauseHolds (τ : Var → Bool) (c : List Lit) : Bool := c.any (Lit.holds τ)

/-! ## What the loops compute -/

/-- The clauses of the nested loops of lines 98-102, by recursion on the list. -/
def pairsFrom : List Lit → List (List Lit)
  | [] => []
  | x :: xs => xs.map (fun y => [x.neg, y.neg]) ++ pairsFrom xs

/-- The clause `(¬lits[i] ∨ ¬lits[j])` for every pair of positions `i < j` of the list, in
the order of the loops of lines 98-102 (`i` ascending, then `j` ascending). -/
def pairClauses (lits : List Lit) : List (List Lit) :=
  (List.range lits.length).flatMap fun i =>
    (List.range' (i + 1) (lits.length - (i + 1))).map fun j =>
      [(lits.getD i lit_Undef).neg, (lits.getD j lit_Undef).neg]

/-- The set after the loop of lines 188-200: the members not false at level 0. -/
def liveSet (S : Solver) (T : AMOTheory) : List Var :=
  T.amo.filter (fun v => !S.constFalse (mkLit v false))

/-! ## The tables of `FloydWarshall` as functions of the row and the column -/

theorem enqueueOthers_enqueued (tv : Var) (r : CRef) (vs : List Var) (S : Solver) :
    (enqueueOthers tv r S vs).enqueued =
      S.enqueued ++ (vs.filter (fun w => w ≠ tv)).map (fun w => (mkLit w true, r)) := by
  induction vs generalizing S with
  | nil => simp [enqueueOthers]
  | cons v vs ih =>
    by_cases h : v = tv
    · simp [enqueueOthers, h, ih]
    · simp [enqueueOthers, h, ih, Solver.enqueue]

theorem enqueueOthers_frame (tv : Var) (r : CRef) (vs : List Var) (S : Solver) :
    (enqueueOthers tv r S vs).assigns = S.assigns ∧
    (enqueueOthers tv r S vs).level = S.level ∧
    (enqueueOthers tv r S vs).decision_level = S.decision_level ∧
    (enqueueOthers tv r S vs).clauses = S.clauses ∧
    (enqueueOthers tv r S vs).satisfied_calls = S.satisfied_calls ∧
    (enqueueOthers tv r S vs).propagated_calls = S.propagated_calls := by
  induction vs generalizing S with
  | nil => simp [enqueueOthers]
  | cons v vs ih =>
    by_cases h : v = tv
    · simp [enqueueOthers, h, ih]
    · simp [enqueueOthers, h, ih, Solver.enqueue]

@[simp]
theorem mkLit_var (v : Var) (b : Bool) : (mkLit v b).var = v := rfl

@[simp]
theorem mkLit_sign (v : Var) (b : Bool) : (mkLit v b).sign = b := rfl

@[simp]
theorem mkLit_neg (v : Var) (b : Bool) : (mkLit v b).neg = mkLit v (!b) := rfl

theorem mkLit_inj (v w : Var) (b c : Bool) : mkLit v b = mkLit w c ↔ v = w ∧ b = c := by
  simp [mkLit]

theorem Solver.constTrue_of_constFalse (S : Solver) (l : Lit) (h : S.constFalse l = true) :
    S.constTrue l = false := by
  simp only [Solver.constFalse, Solver.constTrue, decide_eq_true_eq, decide_eq_false_iff_not] at *
  intro h2
  rw [h.1] at h2
  exact absurd h2.1 (by decide)

theorem Solver.constFalse_congr (S S1 : Solver) (ha : S1.assigns = S.assigns)
    (hl : S1.level = S.level) : S1.constFalse = S.constFalse := by
  funext l
  simp [Solver.constFalse, Solver.value, ha, hl]

theorem Solver.constTrue_congr (S S1 : Solver) (ha : S1.assigns = S.assigns)
    (hl : S1.level = S.level) : S1.constTrue = S.constTrue := by
  funext l
  simp [Solver.constTrue, Solver.value, ha, hl]

@[simp]
theorem constTrue_theoryPropagated (S : Solver) (l : Lit) :
    S.theoryPropagated.constTrue l = S.constTrue l := rfl

@[simp]
theorem constFalse_theoryPropagated (S : Solver) (l : Lit) :
    S.theoryPropagated.constFalse l = S.constFalse l := rfl

@[simp]
theorem constTrue_setTheorySatisfied (S : Solver) (l : Lit) :
    S.setTheorySatisfied.constTrue l = S.constTrue l := rfl

@[simp]
theorem constFalse_setTheorySatisfied (S : Solver) (l : Lit) :
    S.setTheorySatisfied.constFalse l = S.constFalse l := rfl

/-- Clauses `(¬a ∨ ¬s)` under an assignment with `a` true: they hold when each `s` is
false. -/
theorem all_against_holds (τ : Var → Bool) (a : Var) (ss : List Var) (ha : τ a = true) :
    (ss.map (fun s => [mkLit a true, mkLit s true])).all (clauseHolds τ) = true
      ↔ ∀ s ∈ ss, τ s = false := by
  simp [clauseHolds, Lit.holds, ha]

theorem shrinkLoop_congr (S S1 : Solver) (ha : S1.assigns = S.assigns) (hl : S1.level = S.level)
    (vs kept : List Var) (b : Bool) (n : Int) :
    shrinkLoop S1 vs kept b n = shrinkLoop S vs kept b n := by
  induction vs generalizing kept b n with
  | nil => rfl
  | cons v vs ih =>
    simp only [shrinkLoop, Solver.constFalse_congr S S1 ha hl, Solver.constTrue_congr S S1 ha hl,
      ih]

theorem clausify_scan_congr (S S1 : Solver) (ha : S1.assigns = S.assigns)
    (hl : S1.level = S.level) (lits set : List Lit) (ctl : Lit) :
    clausify_scan S1 lits set ctl = clausify_scan S lits set ctl := by
  induction lits generalizing set ctl with
  | nil => rfl
  | cons l lits ih =>
    simp only [clausify_scan, Solver.constFalse_congr S S1 ha hl,
      Solver.constTrue_congr S S1 ha hl, ih]

/-- The members the loop of lines 188-199 keeps: those not false at level 0. -/
theorem shrinkLoop_kept (S : Solver) (vs kept : List Var) (b : Bool) (n : Int) :
    (shrinkLoop S vs kept b n).1 =
      kept ++ vs.filter (fun v => !S.constFalse (mkLit v false)) := by
  induction vs generalizing kept b n with
  | nil => simp [shrinkLoop]
  | cons v vs ih =>
    by_cases h1 : S.constFalse (mkLit v false) = true
    · simp [shrinkLoop, h1, ih]
    · by_cases h2 : S.constTrue (mkLit v false) = true
      · simp [shrinkLoop, h1, h2, ih]
      · simp [shrinkLoop, h1, h2, ih]

/-- The flag `has_true_lit` after the loop of lines 188-199. -/
theorem shrinkLoop_has_true (S : Solver) (vs kept : List Var) (b : Bool) (n : Int) :
    (shrinkLoop S vs kept b n).2.1 =
      (b || vs.any (fun v => S.constTrue (mkLit v false))) := by
  induction vs generalizing kept b n with
  | nil => simp [shrinkLoop]
  | cons v vs ih =>
    by_cases h1 : S.constFalse (mkLit v false) = true
    · have h2 := S.constTrue_of_constFalse _ h1
      simp [shrinkLoop, h1, h2, ih]
    · by_cases h2 : S.constTrue (mkLit v false) = true
      · simp [shrinkLoop, h1, h2, ih]
      · simp [shrinkLoop, h1, h2, ih]

/-- The first loop of `clausify_amo` when no literal is true at level 0. -/
theorem clausify_scan_none (S : Solver) (lits set : List Lit) (ctl : Lit)
    (h : ∀ l ∈ lits, S.constTrue l = false) :
    clausify_scan S lits set ctl =
      Except.ok (set ++ lits.filter (fun l => !S.constFalse l && !S.constTrue l), ctl) := by
  induction lits generalizing set with
  | nil => simp [clausify_scan]
  | cons l lits ih =>
    have hl := h l (List.mem_cons_self _ _)
    have ht := fun x hx => h x (List.mem_cons_of_mem _ hx)
    by_cases h1 : S.constFalse l = true
    · simp [clausify_scan, h1, ih set ht]
    · simp [clausify_scan, h1, hl, ih _ ht]

/-- The first loop of `clausify_amo` when exactly one position holds a literal true at
level 0. -/
theorem clausify_scan_one (S : Solver) (lits set : List Lit) (c : Lit) (hc : c ≠ lit_Undef)
    (h : lits.filter (fun l => S.constTrue l) = [c]) :
    clausify_scan S lits set lit_Undef =
      Except.ok (set ++ lits.filter (fun l => !S.constFalse l && !S.constTrue l), c) := by
  induction lits generalizing set with
  | nil => simp at h
  | cons l lits ih =>
    by_cases h1 : S.constFalse l = true
    · have h2 := S.constTrue_of_constFalse _ h1
      simp only [List.filter_cons, h2] at h
      simp [clausify_scan, h1, ih set h]
    · by_cases h2 : S.constTrue l = true
      · simp only [List.filter_cons, h2, if_true, List.cons.injEq] at h
        obtain ⟨rfl, hrest⟩ := h
        have hn : ∀ x ∈ lits, S.constTrue x = false := by
          intro x hx
          by_contra hx2
          have : x ∈ lits.filter (fun l => S.constTrue l) := by
            simp [List.mem_filter, hx]
            simpa using hx2
          rw [hrest] at this
          simp at this
        simp [clausify_scan, h1, h2, clausify_scan_none S lits set l hn]
      · simp only [List.filter_cons, h2] at h
        simp [clausify_scan, h1, h2, ih _ h]

theorem addAgainst_eq (ctl : Lit) (ss : List Lit) (S : Solver) :
    addAgainst S ctl ss =
      { S with clauses := S.clauses ++ ss.map (fun s => [ctl.neg, s.neg]) } := by
  induction ss generalizing S with
  | nil => simp [addAgainst]
  | cons s ss ih => simp [addAgainst, ih, Solver.addClause]

theorem addPairsWith_eq (x : Lit) (ys : List Lit) (S : Solver) :
    addPairsWith S x ys =
      { S with clauses := S.clauses ++ ys.map (fun y => [x.neg, y.neg]) } := by
  induction ys generalizing S with
  | nil => simp [addPairsWith]
  | cons s ss ih => simp [addPairsWith, ih, Solver.addClause]

theorem addPairs_eq (set : List Lit) (S : Solver) :
    addPairs S set = { S with clauses := S.clauses ++ pairsFrom set } := by
  induction set generalizing S with
  | nil => simp [addPairs, pairsFrom]
  | cons s ss ih => simp [addPairs, pairsFrom, ih, addPairsWith_eq]

/-- `clausify_amo` when no literal of the list is true at level 0: the pairwise clauses
over the literals that are not false at level 0. -/
theorem clausify_amo_none (S : Solver) (lits : List Lit) (hlev : S.decisionLevel = 0)
    (h : ∀ l ∈ lits, S.constTrue l = false) :
    clausify_amo S lits =
      some ({ S with clauses :=
                S.clauses ++ pairsFrom (lits.filter (fun l => !S.constFalse l && !S.constTrue l)) },
        true) := by
  simp only [clausify_amo, hlev, if_true, clausify_scan_none S lits [] lit_Undef h,
    List.nil_append, addPairs_eq]

/-- `clausify_amo` when exactly one position of the list holds a literal true at level 0. -/
theorem clausify_amo_one (S : Solver) (lits : List Lit) (c : Lit) (hlev : S.decisionLevel = 0)
    (hc : c ≠ lit_Undef) (h : lits.filter (fun l => S.constTrue l) = [c]) :
    clausify_amo S lits =
      some ({ S with clauses := (S.clauses ++
                (lits.filter (fun l => !S.constFalse l && !S.constTrue l)).map
                  (fun s => [c.neg, s.neg])) }, true) := by
  simp only [clausify_amo, hlev, if_true, clausify_scan_one S lits [] c hc h,
    List.nil_append, addAgainst_eq, hc, if_false]

/-- `propagateTheory` of a non-clausified instance at decision level 0, with the loop of
lines 188-200 replaced by what it computes. -/
theorem propagateTheory_level0 (o : Options) (S : Solver) (T : AMOTheory) (conflict : List Lit)
    (hcl : T.clausified = false) (hlev : S.decisionLevel = 0) :
    propagateTheory o S T conflict =
      if (T.amo.any (fun v => S.constTrue (mkLit v false))) = true ∨ (liveSet S T).length = 0 ∨
          ((liveSet S T).length : Int) ≤ o.opt_clausify_amo then
        match clausify_amo S.theoryPropagated.setTheorySatisfied
            ((liveSet S T).map (fun v => mkLit v false)) with
        | some (S2, b) =>
          some (S2, { T with amo := liveSet S T, clausified := true }, conflict, b)
        | none => none
      else
        propagateTail o S.theoryPropagated { T with amo := liveSet S T } conflict := by
  have hS0 : (S.theoryPropagated).decisionLevel = 0 := hlev
  simp only [propagateTheory, hcl, hS0, shrinkLoop_congr S S.theoryPropagated rfl rfl,
    shrinkLoop_kept, shrinkLoop_has_true, List.nil_append, Bool.false_or, if_true,
    Bool.false_eq_true, if_false, liveSet]

/-- `propagateTheory` of a non-clausified instance at a decision level other than 0. -/
theorem propagateTheory_above0 (o : Options) (S : Solver) (T : AMOTheory) (conflict : List Lit)
    (hcl : T.clausified = false) (hlev : S.decisionLevel ≠ 0) :
    propagateTheory o S T conflict = propagateTail o S.theoryPropagated T conflict := by
  have hS0 : (S.theoryPropagated).decisionLevel ≠ 0 := hlev
  simp only [propagateTheory, hcl, hS0, if_false, Bool.false_eq_true]

theorem map_getD_range (xs : List Lit) (f : Lit → List Lit) :
    (List.range xs.length).map (fun j => f (xs.getD j lit_Undef)) = xs.map f := by
  apply List.ext_getElem
  · simp
  · intro i h1 h2
    simp at h1
    simp [List.getD_eq_getElem?_getD, List.getElem?_eq_getElem h1]

theorem pairsFrom_eq_pairClauses (lits : List Lit) : pairsFrom lits = pairClauses lits := by
  induction lits with
  | nil => simp [pairsFrom, pairClauses]
  | cons x xs ih =>
    rw [pairsFrom, ih, pairClauses, pairClauses, List.length_cons, List.range_succ_eq_map,
      List.flatMap_cons, List.flatMap_map]
    congr 1
    · simp only [Nat.zero_add, Nat.add_sub_cancel, List.getD_cons_zero]
      rw [List.range'_eq_map_range, List.map_map]
      rw [← map_getD_range xs (fun y => [x.neg, y.neg])]
      apply List.map_congr_left
      intro j _
      simp [Nat.add_comm 1 j]
    · congr 1
      funext i
      have : List.range' (i.succ + 1) (xs.length + 1 - (i.succ + 1))
          = (List.range' (i + 1) (xs.length - (i + 1))).map (fun j => 1 + j) := by
        rw [List.map_add_range']
        congr 1
        · omega
        · omega
      rw [this, List.map_map]
      apply List.map_congr_left
      intro j _
      simp [Nat.add_comm 1 j]

theorem pairsFrom_length (lits : List Lit) :
    (pairsFrom lits).length = lits.length * (lits.length - 1) / 2 := by
  induction lits with
  | nil => simp [pairsFrom]
  | cons x xs ih =>
    simp only [pairsFrom, List.length_append, List.length_map, ih, List.length_cons,
      Nat.add_sub_cancel]
    have h := Nat.choose_two_right (xs.length + 1)
    rw [Nat.choose_succ_succ', Nat.choose_one_right, Nat.choose_two_right] at h
    simpa using h

theorem holds_neg (τ : Var → Bool) (p : Lit) : Lit.holds τ p.neg = !Lit.holds τ p := by
  cases p with
  | mk v s => cases s <;> cases h : τ v <;> simp [Lit.holds, Lit.neg, h]

theorem pairsFrom_holds (τ : Var → Bool) (lits : List Lit) :
    (pairsFrom lits).all (clauseHolds τ) = true ↔ (lits.filter (Lit.holds τ)).length ≤ 1 := by
  induction lits with
  | nil => simp [pairsFrom]
  | cons x xs ih =>
    simp only [pairsFrom, List.all_append, Bool.and_eq_true, ih, List.filter_cons]
    by_cases hx : Lit.holds τ x = true
    · simp only [hx, if_true, List.length_cons]
      constructor
      · rintro ⟨h1, _⟩
        have : xs.filter (Lit.holds τ) = [] := by
          rw [List.filter_eq_nil_iff]
          intro y hy
          have := List.all_eq_true.mp h1 [x.neg, y.neg] (List.mem_map.mpr ⟨y, hy, rfl⟩)
          simpa [clauseHolds, holds_neg, hx] using this
        simp [this]
      · intro h
        have h0 : xs.filter (Lit.holds τ) = [] := by
          apply List.eq_nil_of_length_eq_zero
          omega
        refine ⟨?_, by simp [h0]⟩
        rw [List.filter_eq_nil_iff] at h0
        rw [List.all_eq_true]
        intro c hc
        obtain ⟨y, hy, rfl⟩ := List.mem_map.mp hc
        simpa [clauseHolds, holds_neg, hx] using h0 y hy
    · simp only [hx, if_false, Bool.false_eq_true]
      constructor
      · exact fun h => h.2
      · intro h
        refine ⟨?_, h⟩
        rw [List.all_eq_true]
        intro c hc
        obtain ⟨y, _, rfl⟩ := List.mem_map.mp hc
        simp [clauseHolds, holds_neg, hx]
theorem lbool_xor_false (b : lbool) : b.xor false = b := by
  cases b <;> rfl

/-- A variable assigned true is not false at level 0. -/
theorem constFalse_of_true (S : Solver) (v : Var) (h : S.valueVar v = lbool.l_True) :
    S.constFalse (mkLit v false) = false := by
  simp only [Solver.valueVar] at h
  simp [Solver.constFalse, Solver.value, lbool_xor_false, h]

/-- The early exit of the first loop of `clausify_amo`: the two literals of the clause are
true at level 0 and stand at two positions of the list, in this order. -/
theorem clausify_scan_error (S : Solver) (lits set : List Lit) (ctl c l : Lit)
    (h : clausify_scan S lits set ctl = Except.error (c, l)) :
    S.constTrue l = true ∧
      ((ctl ≠ lit_Undef ∧ c = ctl ∧ l ∈ lits) ∨
        (ctl = lit_Undef ∧ S.constTrue c = true ∧ List.Sublist [c, l] lits)) := by
  induction lits generalizing set ctl with
  | nil => simp [clausify_scan] at h
  | cons x xs ih =>
    have lift : (S.constTrue l = true ∧
        ((ctl ≠ lit_Undef ∧ c = ctl ∧ l ∈ xs) ∨
          (ctl = lit_Undef ∧ S.constTrue c = true ∧ List.Sublist [c, l] xs))) →
        (S.constTrue l = true ∧
        ((ctl ≠ lit_Undef ∧ c = ctl ∧ l ∈ x :: xs) ∨
          (ctl = lit_Undef ∧ S.constTrue c = true ∧ List.Sublist [c, l] (x :: xs)))) := by
      rintro ⟨h1, h2⟩
      refine ⟨h1, ?_⟩
      rcases h2 with ⟨a, b, d⟩ | ⟨a, b, d⟩
      · exact Or.inl ⟨a, b, List.mem_cons_of_mem _ d⟩
      · exact Or.inr ⟨a, b, List.Sublist.cons _ d⟩
    by_cases h1 : S.constFalse x = true
    · simp only [clausify_scan, h1, if_true] at h
      exact lift (ih set ctl h)
    · by_cases h2 : S.constTrue x = true
      · by_cases h3 : ctl = lit_Undef
        · simp only [clausify_scan, h1, h2, h3, if_true, if_false, Bool.false_eq_true] at h
          obtain ⟨hl, hrest⟩ := ih set x h
          refine ⟨hl, Or.inr ⟨h3, ?_⟩⟩
          rcases hrest with ⟨_, b, d⟩ | ⟨_, b, d⟩
          · subst b
            exact ⟨h2, List.Sublist.cons₂ _ (List.singleton_sublist.mpr d)⟩
          · exact ⟨b, List.Sublist.cons _ d⟩
        · simp only [clausify_scan, h1, h2, h3, if_true, if_false, Bool.false_eq_true,
            Except.error.injEq, Prod.mk.injEq] at h
          obtain ⟨rfl, rfl⟩ := h
          exact ⟨h2, Or.inl ⟨h3, rfl, List.mem_cons_self _ _⟩⟩
      · simp only [clausify_scan, h1, h2, if_false, Bool.false_eq_true] at h
        exact lift (ih _ ctl h)

/-- `clausify_amo` returning false: one clause was added, on two literals true at level 0
standing at two positions of the list. -/
theorem clausify_amo_false (S S1 : Solver) (lits : List Lit)
    (h : clausify_amo S lits = some (S1, false)) :
    ∃ c l, S.constTrue c = true ∧ S.constTrue l = true ∧ List.Sublist [c, l] lits ∧
      S1 = S.addClause c.neg l.neg := by
  unfold clausify_amo at h
  by_cases hlev : S.decisionLevel = 0
  · simp only [hlev, if_true] at h
    cases hs : clausify_scan S lits [] lit_Undef with
    | error e =>
      obtain ⟨c, l⟩ := e
      rw [hs] at h
      simp only [Option.some.injEq, Prod.mk.injEq, and_true] at h
      obtain ⟨hl, hrest⟩ := clausify_scan_error S lits [] lit_Undef c l hs
      rcases hrest with ⟨hne, _, _⟩ | ⟨_, hc, hsub⟩
      · exact absurd rfl hne
      · exact ⟨c, l, hc, hl, hsub, h.symm⟩
    | ok r =>
      obtain ⟨set, ctl⟩ := r
      rw [hs] at h
      by_cases hc : ctl = lit_Undef <;> simp [hc] at h
  · simp [hlev] at h

/-- `clausify_amo` never forces a literal and changes nothing the theory reads. -/
theorem clausify_amo_frame (S S1 : Solver) (lits : List Lit) (b : Bool)
    (h : clausify_amo S lits = some (S1, b)) :
    S1.enqueued = S.enqueued ∧ S1.assigns = S.assigns ∧ S1.level = S.level ∧
      S1.decision_level = S.decision_level := by
  unfold clausify_amo at h
  by_cases hlev : S.decisionLevel = 0
  · simp only [hlev, if_true] at h
    cases hs : clausify_scan S lits [] lit_Undef with
    | error e =>
      obtain ⟨c, l⟩ := e
      rw [hs] at h
      simp only [Option.some.injEq, Prod.mk.injEq] at h
      rw [← h.1]
      simp [Solver.addClause]
    | ok r =>
      obtain ⟨set, ctl⟩ := r
      rw [hs] at h
      by_cases hc : ctl = lit_Undef
      · simp only [hc, if_true, Option.some.injEq, Prod.mk.injEq, addPairs_eq] at h
        rw [← h.1]
        simp
      · simp only [hc, if_false, Option.some.injEq, Prod.mk.injEq, addAgainst_eq] at h
        rw [← h.1]
        simp
  · simp [hlev] at h

/-- Lines 215-235 returning false: the conflict vector is rebuilt from the two recorded
variables, nothing is forced, and only the pending flag and the conflict counter change. -/
theorem propagateTail_false (o : Options) (S S1 : Solver) (T T1 : AMOTheory)
    (conflict c1 : List Lit) (h : propagateTail o S T conflict = some (S1, T1, c1, false)) :
    T.conflict_var ≠ var_Undef ∧ T.true_var ≠ var_Undef ∧ T.true_var ≠ T.conflict_var ∧
      S1 = S ∧ c1 = [mkLit T.conflict_var true, mkLit T.true_var true] ∧
      T1 = { T with needs_propagation := false, stats_conflicts := T.stats_conflicts + 1 } := by
  unfold propagateTail at h
  by_cases h1 : T.conflict_var = var_Undef
  · by_cases h2 : T.true_var ≠ var_Undef ∧ T.needs_propagation = true
    · cases he : o.opt_amo_eager_prop <;> simp [h1, h2, he] at h
    · simp [h1, h2] at h
  · by_cases h2 : T.true_var = var_Undef
    · simp [h1, h2] at h
    · by_cases h3 : T.true_var = T.conflict_var
      · simp [h1, h2, h3] at h
      · simp only [ne_eq, h1, not_false_eq_true, if_true, h2, h3, Option.some.injEq,
          Prod.mk.injEq, and_true] at h
        exact ⟨h1, h2, h3, h.1.symm, h.2.2.symm, h.2.1.symm⟩

/-- `clausify_amo` on the positive literals of a list of variables, returning false. -/
theorem clausify_amo_vars_false (S S1 : Solver) (vs : List Var)
    (h : clausify_amo S (vs.map (fun v => mkLit v false)) = some (S1, false)) :
    ∃ a b, List.Sublist [a, b] vs ∧ S.constTrue (mkLit a false) = true ∧
      S.constTrue (mkLit b false) = true ∧
      S1.clauses = S.clauses ++ [[mkLit a true, mkLit b true]] := by
  obtain ⟨c, l, hc, hl, hsub, hS⟩ := clausify_amo_false S S1 _ h
  obtain ⟨l2, hl2, hmap⟩ := List.sublist_map_iff.mp hsub
  match l2, hl2, hmap with
  | [a, b], hl2, hmap =>
    simp only [List.map_cons, List.map_nil, List.cons.injEq, and_true] at hmap
    obtain ⟨rfl, rfl⟩ := hmap
    exact ⟨a, b, hl2, hc, hl, by simp [hS, Solver.addClause]⟩

@[simp]
theorem enqueueOthers_decisionLevel (tv : Var) (r : CRef) (vs : List Var) (S : Solver) :
    (enqueueOthers tv r S vs).decisionLevel = S.decisionLevel :=
  (enqueueOthers_frame tv r vs S).2.2.1

@[simp]
theorem theoryPropagated_enqueued (S : Solver) :
    S.theoryPropagated.enqueued = S.enqueued := rfl

@[simp]
theorem theoryPropagated_decisionLevel (S : Solver) :
    S.theoryPropagated.decisionLevel = S.decisionLevel := rfl

/-- Lines 215-235 change nothing the theory reads from the solver, add no clause and keep
the set and the `clausified` flag. -/
theorem propagateTail_frame (o : Options) (S S1 : Solver) (T T1 : AMOTheory)
    (conflict c1 : List Lit) (r1 : Bool)
    (h : propagateTail o S T conflict = some (S1, T1, c1, r1)) :
    S1.assigns = S.assigns ∧ S1.level = S.level ∧ S1.decision_level = S.decision_level ∧
      S1.clauses = S.clauses ∧ T1.amo = T.amo ∧ T1.clausified = T.clausified := by
  unfold propagateTail at h
  by_cases h1 : T.conflict_var = var_Undef
  · by_cases h2 : T.true_var ≠ var_Undef ∧ T.needs_propagation = true
    · cases he : o.opt_amo_eager_prop
      · simp only [ne_eq, h1, not_true_eq_false, if_false, h2, and_self, if_true, he,
          Bool.not_false, Option.some.injEq, Prod.mk.injEq] at h
        obtain ⟨rfl, rfl, _, _⟩ := h
        have hf := enqueueOthers_frame T.true_var T.assign_false_reason T.amo S
        exact ⟨hf.1, hf.2.1, hf.2.2.1, hf.2.2.2.1, rfl, rfl⟩
      · simp [h1, h2, he] at h
    · simp only [ne_eq, h1, not_true_eq_false, if_false, h2, Option.some.injEq,
        Prod.mk.injEq] at h
      obtain ⟨rfl, rfl, _, _⟩ := h
      exact ⟨rfl, rfl, rfl, rfl, rfl, rfl⟩
  · by_cases h2 : T.true_var = var_Undef
    · simp [h1, h2] at h
    · by_cases h3 : T.true_var = T.conflict_var
      · simp [h1, h2, h3] at h
      · simp only [ne_eq, h1, not_false_eq_true, if_true, h2, h3, Option.some.injEq,
          Prod.mk.injEq] at h
        obtain ⟨rfl, rfl, _, _⟩ := h
        exact ⟨rfl, rfl, rfl, rfl, rfl, rfl⟩

/-- Lines 215-235 run a second time on the state the first run left: the same value is
returned and the solver is left as it is. -/
theorem propagateTail_again (o : Options) (S S1 : Solver) (T T1 : AMOTheory)
    (conflict c1 : List Lit) (r1 : Bool)
    (h : propagateTail o S T conflict = some (S1, T1, c1, r1)) (S2 : Solver) (c : List Lit) :
    (propagateTail o S2 T1 c).map (fun r => (r.1.enqueued, r.1.clauses, r.2.2.2))
      = some (S2.enqueued, S2.clauses, r1) := by
  unfold propagateTail at h
  by_cases h1 : T.conflict_var = var_Undef
  · by_cases h2 : T.true_var ≠ var_Undef ∧ T.needs_propagation = true
    · cases he : o.opt_amo_eager_prop
      · simp only [ne_eq, h1, not_true_eq_false, if_false, h2, and_self, if_true, he,
          Bool.not_false, Option.some.injEq, Prod.mk.injEq] at h
        obtain ⟨_, rfl, _, rfl⟩ := h
        simp [propagateTail, h1]
      · simp [h1, h2, he] at h
    · simp only [ne_eq, h1, not_true_eq_false, if_false, h2, Option.some.injEq,
        Prod.mk.injEq] at h
      obtain ⟨_, rfl, _, rfl⟩ := h
      simp only [propagateTail, ne_eq, h1, not_true_eq_false, if_false, h2]
      rfl
  · by_cases h2 : T.true_var = var_Undef
    · simp [h1, h2] at h
    · by_cases h3 : T.true_var = T.conflict_var
      · simp [h1, h2, h3] at h
      · simp only [ne_eq, h1, not_false_eq_true, if_true, h2, h3, Option.some.injEq,
          Prod.mk.injEq] at h
        obtain ⟨_, rfl, _, rfl⟩ := h
        simp [propagateTail, h1, h2, h3]

/-! ## The claims -/

/-- C1: from the no-true-variable state of a non-clausified instance, `enqueueTheory(+a)`
then `enqueueTheory(+b)` for two distinct variables `a`, `b` (members of the set or not),
followed by `propagateTheory` at a decision level above 0: no assertion fails,
`propagateTheory` returns false and the conflict vector is exactly the two literals `¬b`,
`¬a`, whatever the vector held before and whatever the solver state (`Sa`, `Sb`, `Sc`) at
each of the three calls. -/
theorem C1_two_true_members_conflict (o : Options) (Sa Sb Sc : Solver) (T : AMOTheory)
    (a b : Var) (conflict : List Lit)
    (hcl : T.clausified = false) (htv : T.true_var = var_Undef)
    (hcv : T.conflict_var = var_Undef) (hnp : T.needs_propagation = false)
    (hab : a ≠ b)
    (hau : a ≠ var_Undef) (hbu : b ≠ var_Undef) (hlev : 0 < Sc.decisionLevel) :
    ((enqueueTheory o Sa T (mkLit a false)).bind fun r1 =>
      (enqueueTheory o Sb r1.2 (mkLit b false)).bind fun r2 =>
        (propagateTheory o Sc r2.2 conflict).map fun r3 => (r3.2.2.1, r3.2.2.2))
      = some ([mkLit b true, mkLit a true], false) := by
  have hne : Sc.decisionLevel ≠ 0 := by omega
  have hba : b ≠ a := fun h => hab h.symm
  cases he : o.opt_amo_eager_prop <;>
    simp [enqueueTheory, propagateTheory, propagateTail, mkLit, hcl, htv, hcv, hnp, he, hau,
      hbu, hab, hba, hne]

/-- Witness of C1: the set {1, 2, 3}, members 1 and 2, deferred propagation, level 1. -/
theorem C1_two_true_members_conflict_witness :
    ((enqueueTheory ⟨false, 0, 0⟩ (Solver.atLevel 1 []) (AMOTheory.fresh 7 [1, 2, 3])
        (mkLit 1 false)).bind fun r1 =>
      (enqueueTheory ⟨false, 0, 0⟩ (Solver.atLevel 1 []) r1.2 (mkLit 2 false)).bind fun r2 =>
        (propagateTheory ⟨false, 0, 0⟩ (Solver.atLevel 1 []) r2.2 [mkLit 9 false]).map
          fun r3 => (r3.2.2.1, r3.2.2.2))
      = some ([mkLit 2 true, mkLit 1 true], false) :=
  C1_two_true_members_conflict ⟨false, 0, 0⟩ (Solver.atLevel 1 []) (Solver.atLevel 1 [])
    (Solver.atLevel 1 []) (AMOTheory.fresh 7 [1, 2, 3]) 1 2 [mkLit 9 false]
    rfl rfl rfl rfl (by decide) (by decide) (by decide) (by decide)

/-- C2: from the no-true-variable state of a non-clausified instance, `enqueueTheory(+v)`
for a variable `v` followed by one `propagateTheory` at a decision level above 0 (the core
may have changed its assignment, levels and decision level in between): no assertion
fails, `propagateTheory` returns true, and in either propagation mode the `enqueue` calls
the two calls add to the record are exactly `¬w`, with reason `assign_false_reason`, for
the members `w ≠ v` in set order, once per position; none is a literal of `v`. -/
theorem C2_one_true_member_forces_others (o : Options) (S : Solver) (T : AMOTheory) (v : Var)
    (conflict : List Lit) (A : Var → lbool) (L : Var → Int) (d : Int)
    (hcl : T.clausified = false) (htv : T.true_var = var_Undef)
    (hcv : T.conflict_var = var_Undef) (hnp : T.needs_propagation = false)
    (hvu : v ≠ var_Undef) (hlev : 0 < d) :
    ((enqueueTheory o S T (mkLit v false)).bind fun r1 =>
      (propagateTheory o { r1.1 with assigns := A, level := L, decision_level := d } r1.2
        conflict).map fun r2 => (r2.1.enqueued, r2.2.2.2))
      = some (S.enqueued ++ (T.amo.filter (fun w => w ≠ v)).map
          (fun w => (mkLit w true, T.assign_false_reason)), true)
    ∧ ∀ q ∈ (T.amo.filter (fun w => w ≠ v)).map
          (fun w => (mkLit w true, T.assign_false_reason)), q.1.var ≠ v := by
  constructor
  · have hne : d ≠ 0 := by omega
    cases he : o.opt_amo_eager_prop <;>
      simp [enqueueTheory, propagateTheory, propagateTail, mkLit, hcl, htv, hcv, hnp, he, hvu,
        hne, Solver.theoryPropagated, Solver.decisionLevel, enqueueOthers_enqueued]
  · intro q hq
    simp only [List.mem_map, List.mem_filter] at hq
    obtain ⟨w, ⟨_, hw⟩, rfl⟩ := hq
    simpa [mkLit] using hw

/-- Witness of C2: the set {1, 2, 3, 2}, member 2, eager propagation, level 3. -/
theorem C2_one_true_member_forces_others_witness :
    ((enqueueTheory ⟨true, 0, 0⟩ (Solver.atLevel 0 []) (AMOTheory.fresh 7 [1, 2, 3, 2])
        (mkLit 2 false)).bind fun r1 =>
      (propagateTheory ⟨true, 0, 0⟩
        { r1.1 with assigns := fun _ => lbool.l_Undef, level := fun _ => 0, decision_level := 3 }
        r1.2 []).map fun r2 => (r2.1.enqueued, r2.2.2.2))
      = some ((Solver.atLevel 0 []).enqueued ++
          ((AMOTheory.fresh 7 [1, 2, 3, 2]).amo.filter (fun w => w ≠ 2)).map
            (fun w => (mkLit w true, (AMOTheory.fresh 7 [1, 2, 3, 2]).assign_false_reason)), true)
    ∧ ∀ q ∈ ((AMOTheory.fresh 7 [1, 2, 3, 2]).amo.filter (fun w => w ≠ 2)).map
          (fun w => (mkLit w true, (AMOTheory.fresh 7 [1, 2, 3, 2]).assign_false_reason)),
        q.1.var ≠ 2 :=
  C2_one_true_member_forces_others ⟨true, 0, 0⟩ (Solver.atLevel 0 [])
    (AMOTheory.fresh 7 [1, 2, 3, 2]) 2 [] (fun _ => lbool.l_Undef) (fun _ => 0) 3
    rfl rfl rfl rfl (by decide) (by decide)

/-- C3 (the code at the failing input): on the graph with four nodes and the enabled edges
0→1 and 1→2, with source 0 registered on sink 50, `update` tells the sink that each of the
nodes 0, 1, 2, 3 is unreachable, and `connected(t)` then returns false for each of them:
`update` computes the distance table but never writes `seen`, from which both are read. -/
theorem C3_chain_nothing_reported_reachable :
    (((FloydWarshall.new 0).addSource 0 50).bind fun fw =>
      (fw.update DynamicGraph.chain).map fun r =>
        (r.2, [0, 1, 2, 3].map fun t =>
          (r.1.connected DynamicGraph.chain t).map fun c => c.2.2))
      = some ([⟨50, 0, false⟩, ⟨50, 1, false⟩, ⟨50, 2, false⟩, ⟨50, 3, false⟩],
          [some false, some false, some false, some false]) := by
  decide

/-- C4: for a literal `p = ¬v` with `v ≠ true_var`, propagated under the marker
`assign_false_reason` (so `p` and the recorded `true_var` are assigned true),
`buildReason(p, reason, marker)` fails no assertion, appends to `reason` exactly the two
literals `¬v`, `¬true_var`, and changes no theory state other than `stats_reasons`. -/
theorem C4_buildReason_clause (S : Solver) (T : AMOTheory) (v : Var) (reason : List Lit)
    (marker : CRef) (hv : v ≠ T.true_var) (hm : marker = T.assign_false_reason)
    (hp : S.value (mkLit v true) = lbool.l_True)
    (ht : S.valueVar T.true_var = lbool.l_True) :
    buildReason S T (mkLit v true) reason marker =
      some ({ T with stats_reasons := T.stats_reasons + 1 },
        reason ++ [mkLit v true, mkLit T.true_var true]) := by
  simp [buildReason, hm, mkLit, hv, ht] at *
  exact hp

/-- Witness of C4: set {1, 2, 3} with `true_var = 1`, literal `¬2` assigned true. -/
theorem C4_buildReason_clause_witness :
    buildReason (Solver.atLevel 1 [(1, true), (2, false)])
        { AMOTheory.fresh 7 [1, 2, 3] with true_var := 1 } (mkLit 2 true) [] 7 =
      some ({ ({ AMOTheory.fresh 7 [1, 2, 3] with true_var := 1 } : AMOTheory) with
                stats_reasons :=
                  ({ AMOTheory.fresh 7 [1, 2, 3] with true_var := 1 } : AMOTheory).stats_reasons
                    + 1 },
        [] ++ [mkLit 2 true,
          mkLit ({ AMOTheory.fresh 7 [1, 2, 3] with true_var := 1 } : AMOTheory).true_var true]) :=
  C4_buildReason_clause (Solver.atLevel 1 [(1, true), (2, false)])
    { AMOTheory.fresh 7 [1, 2, 3] with true_var := 1 } 2 [] 7 (by decide) rfl (by decide)
    (by decide)

/-- C5: when a non-clausified instance is propagated at decision level 0 and exactly one
position of the set holds a variable `a` that is true at level 0, `propagateTheory`
clausifies and returns true; the clauses it adds are exactly `(¬a ∨ ¬s)` for each member
`s` that is neither false nor true at level 0, in set order, and no other clause; under an
assignment with `a` true these clauses all hold exactly when every such `s` is false. -/
theorem C5_clausify_constant_true (o : Options) (S : Solver) (T : AMOTheory) (a : Var)
    (conflict : List Lit) (hcl : T.clausified = false) (hlev : S.decisionLevel = 0)
    (hau : a ≠ var_Undef)
    (hone : T.amo.filter (fun v => S.constTrue (mkLit v false)) = [a]) :
    propagateTheory o S T conflict =
      some ({ S with
                propagated_calls := S.propagated_calls + 1,
                satisfied_calls := S.satisfied_calls + 1,
                clauses := S.clauses ++
                  (T.amo.filter (fun s => !S.constFalse (mkLit s false) &&
                      !S.constTrue (mkLit s false))).map
                    (fun s => [mkLit a true, mkLit s true]) },
            { T with amo := T.amo.filter (fun v => !S.constFalse (mkLit v false)),
                     clausified := true },
            conflict, true)
    ∧ ∀ τ : Var → Bool, τ a = true →
        (((T.amo.filter (fun s => !S.constFalse (mkLit s false) &&
              !S.constTrue (mkLit s false))).map
            (fun s => [mkLit a true, mkLit s true])).all (clauseHolds τ) = true
          ↔ ∀ s ∈ T.amo, S.constFalse (mkLit s false) = false →
              S.constTrue (mkLit s false) = false → τ s = false) := by
  constructor
  · have hS1 : (S.theoryPropagated).setTheorySatisfied.decisionLevel = 0 := hlev
    have hany : (T.amo.any fun v => S.constTrue (mkLit v false)) = true := by
      have : a ∈ T.amo.filter (fun v => S.constTrue (mkLit v false)) := by simp [hone]
      rw [List.mem_filter] at this
      exact List.any_eq_true.mpr ⟨a, this⟩
    have hctl : mkLit a false ≠ lit_Undef := by simpa [lit_Undef, mkLit] using hau
    have hf : ((liveSet S T).map (fun v => mkLit v false)).filter
        (fun l => S.theoryPropagated.setTheorySatisfied.constTrue l) = [mkLit a false] := by
      simp only [constTrue_setTheorySatisfied, constTrue_theoryPropagated]
      rw [List.filter_map, liveSet, List.filter_filter]
      have : [mkLit a false] = [a].map (fun v => mkLit v false) := rfl
      rw [this, ← hone]
      congr 1
      apply List.filter_congr
      intro v _
      by_cases h1 : S.constFalse (mkLit v false) = true
      · simp [h1, S.constTrue_of_constFalse _ h1]
      · simp [h1]
    have hg : ((liveSet S T).map (fun v => mkLit v false)).filter
        (fun l => !S.theoryPropagated.setTheorySatisfied.constFalse l &&
          !S.theoryPropagated.setTheorySatisfied.constTrue l) =
        (T.amo.filter (fun s => !S.constFalse (mkLit s false) &&
          !S.constTrue (mkLit s false))).map (fun v => mkLit v false) := by
      simp only [constTrue_setTheorySatisfied, constTrue_theoryPropagated,
        constFalse_setTheorySatisfied, constFalse_theoryPropagated]
      rw [List.filter_map, liveSet, List.filter_filter]
      congr 1
      apply List.filter_congr
      intro v _
      simp only [Function.comp_apply]
      cases S.constFalse (mkLit v false) <;> cases S.constTrue (mkLit v false) <;> rfl
    rw [propagateTheory_level0 o S T conflict hcl hlev, if_pos (Or.inl hany),
      clausify_amo_one _ _ (mkLit a false) hS1 hctl hf, hg]
    simp [Solver.theoryPropagated, Solver.setTheorySatisfied, Function.comp_def, liveSet]
  · intro τ ha
    rw [all_against_holds τ a _ ha]
    simp only [List.mem_filter, Bool.and_eq_true, Bool.not_eq_true']
    constructor
    · intro h s hs h1 h2
      exact h s ⟨hs, h1, h2⟩
    · intro h s hs
      exact h s hs.1 hs.2.1 hs.2.2

/-- Witness of C5: the set {1, 2, 3} with threshold 2, variable 1 true at level 0. -/
theorem C5_clausify_constant_true_witness :
    (propagateTheory ⟨false, 2, 0⟩ (Solver.atLevel 0 [(1, true)]) (AMOTheory.fresh 7 [1, 2, 3])
        []).map (fun r => (r.1.clauses, r.2.1.amo, r.2.1.clausified, r.2.2.2))
      = some ([[mkLit 1 true, mkLit 2 true], [mkLit 1 true, mkLit 3 true]], [1, 2, 3], true,
          true) := by
  rw [(C5_clausify_constant_true ⟨false, 2, 0⟩ (Solver.atLevel 0 [(1, true)])
    (AMOTheory.fresh 7 [1, 2, 3]) 1 [] rfl rfl (by decide) (by decide)).1]
  decide

/-- C6: at decision level 0 (the precondition `clausify_amo` asserts), for a list of
literals none of which is false or true at level 0, `clausify_amo` returns true and adds
exactly the clauses `(¬lits[i] ∨ ¬lits[j])`, one for every pair of positions `i < j`, which
are `n(n-1)/2` clauses for `n` literals; an assignment satisfies all of them exactly when at
most one position of the list holds a true literal (for distinct literals: at most one
literal of the list is true). -/
theorem C6_clausify_all_pairs (S : Solver) (lits : List Lit) (hlev : S.decisionLevel = 0)
    (hnc : ∀ l ∈ lits, S.constFalse l = false ∧ S.constTrue l = false) :
    clausify_amo S lits = some ({ S with clauses := S.clauses ++ pairClauses lits }, true)
    ∧ (pairClauses lits).length = lits.length * (lits.length - 1) / 2
    ∧ ∀ τ : Var → Bool,
        ((pairClauses lits).all (clauseHolds τ) = true
          ↔ (lits.filter (Lit.holds τ)).length ≤ 1) := by
  have hfil : lits.filter (fun l => !S.constFalse l && !S.constTrue l) = lits := by
    rw [List.filter_eq_self]
    intro l hl
    simp [hnc l hl]
  refine ⟨?_, ?_, ?_⟩
  · rw [clausify_amo_none S lits hlev (fun l hl => (hnc l hl).2), hfil,
      pairsFrom_eq_pairClauses]
  · rw [← pairsFrom_eq_pairClauses, pairsFrom_length]
  · intro τ
    rw [← pairsFrom_eq_pairClauses, pairsFrom_holds]

/-- Witness of C6: the three positive literals of 1, 2, 3, all unassigned. -/
theorem C6_clausify_all_pairs_witness :
    (clausify_amo (Solver.atLevel 0 []) [mkLit 1 false, mkLit 2 false, mkLit 3 false]).map
        (fun r => (r.1.clauses, r.2))
      = some ([[mkLit 1 true, mkLit 2 true], [mkLit 1 true, mkLit 3 true],
          [mkLit 2 true, mkLit 3 true]], true) := by
  rw [(C6_clausify_all_pairs (Solver.atLevel 0 []) [mkLit 1 false, mkLit 2 false, mkLit 3 false]
    rfl (by decide)).1]
  decide

/-- C7: once the `clausified` flag is set, `propagateTheory` returns true, reports the
theory satisfied (one more `setTheorySatisfied` call), forces no literal, adds no clause
and leaves the conflict vector and the whole theory state (the set and the flag included)
unchanged; `enqueueTheory` leaves the solver and the whole theory state unchanged; and
`undecideTheory` keeps the flag set, so all of this holds for every later call. -/
theorem C7_clausified_is_final (o : Options) (S : Solver) (T : AMOTheory) (conflict : List Lit)
    (l : Lit) (hcl : T.clausified = true) :
    propagateTheory o S T conflict = some (S.setTheorySatisfied, T, conflict, true)
    ∧ S.setTheorySatisfied.satisfied_calls = S.satisfied_calls + 1
    ∧ S.setTheorySatisfied.enqueued = S.enqueued
    ∧ S.setTheorySatisfied.clauses = S.clauses
    ∧ enqueueTheory o S T l = some (S, T)
    ∧ ∀ T1, undecideTheory T l = some T1 → T1.clausified = true ∧ T1.amo = T.amo := by
  refine ⟨by simp [propagateTheory, hcl], rfl, rfl, rfl, by simp [enqueueTheory, hcl], ?_⟩
  intro T1 h
  unfold undecideTheory at h
  by_cases h1 : l.var = T.true_var <;> by_cases h2 : T.conflict_var = var_Undef <;>
    by_cases h3 : l.var = T.conflict_var <;> by_cases h4 : l.var = var_Undef <;>
    simp_all <;> (subst h; simp [hcl])

/-- Witness of C7: a clausified instance over {1, 2}, literal `+1`. -/
theorem C7_clausified_is_final_witness :
    propagateTheory ⟨false, 2, 0⟩ (Solver.atLevel 1 [])
        { AMOTheory.fresh 7 [1, 2] with clausified := true } [mkLit 5 false]
      = some ((Solver.atLevel 1 []).setTheorySatisfied,
          { AMOTheory.fresh 7 [1, 2] with clausified := true }, [mkLit 5 false], true) :=
  (C7_clausified_is_final ⟨false, 2, 0⟩ (Solver.atLevel 1 [])
    { AMOTheory.fresh 7 [1, 2] with clausified := true } [mkLit 5 false] (mkLit 1 false) rfl).1

/-- Counterexample to C8 as stated: with 1 and 2 both true at level 0, after
`enqueueTheory(+1)` and `enqueueTheory(+2)` the call `propagateTheory` at decision level 0
returns false and the conflict vector, empty before the call, is still empty. -/
theorem C8_level0_conflict_leaves_conflict_empty :
    ((enqueueTheory ⟨false, 0, 0⟩ (Solver.atLevel 0 [(1, true), (2, true)])
        (AMOTheory.fresh 7 [1, 2]) (mkLit 1 false)).bind fun r1 =>
      (enqueueTheory ⟨false, 0, 0⟩ r1.1 r1.2 (mkLit 2 false)).bind fun r2 =>
        (propagateTheory ⟨false, 0, 0⟩ r2.1 r2.2 []).map fun r3 =>
          (r3.1.clauses, r3.2.2.1, r3.2.2.2))
      = some ([[mkLit 1 true, mkLit 2 true]], [], false) := by
  decide

/-- C8 (amended): whenever `propagateTheory` returns false, either the call ran the level-0
clausification (decision level 0, flag `clausified` newly set): then the conflict vector is
left as it was and the clause `(¬a ∨ ¬b)` of two positions `a`, `b` of the set, both true
at level 0, has been added to the solver; or the conflict vector has been set to exactly
the two literals `¬conflict_var`, `¬true_var` of the two recorded variables, which are
distinct, and every member of the set that is assigned true is still a member after the
call (so the two are set members assigned true whenever they were recorded as such). -/
theorem C8_false_reports_conflict (o : Options) (S S1 : Solver) (T T1 : AMOTheory)
    (conflict c1 : List Lit)
    (h : propagateTheory o S T conflict = some (S1, T1, c1, false)) :
    (S.decisionLevel = 0 ∧ T.clausified = false ∧ T1.clausified = true ∧ c1 = conflict ∧
      ∃ a b, List.Sublist [a, b] T.amo ∧ S.constTrue (mkLit a false) = true ∧
        S.constTrue (mkLit b false) = true ∧
        S1.clauses = S.clauses ++ [[mkLit a true, mkLit b true]])
    ∨ (T1.clausified = false ∧ c1 = [mkLit T.conflict_var true, mkLit T.true_var true] ∧
        T.conflict_var ≠ var_Undef ∧ T.true_var ≠ var_Undef ∧ T.true_var ≠ T.conflict_var ∧
        T1.true_var = T.true_var ∧ T1.conflict_var = T.conflict_var ∧
        S1.clauses = S.clauses ∧
        ∀ v ∈ T.amo, S.valueVar v = lbool.l_True → v ∈ T1.amo) := by
  cases hcl : T.clausified with
  | true => simp [propagateTheory, hcl] at h
  | false =>
    by_cases hlev : S.decisionLevel = 0
    · rw [propagateTheory_level0 o S T conflict hcl hlev] at h
      split at h
      · left
        cases hc : clausify_amo S.theoryPropagated.setTheorySatisfied
            ((liveSet S T).map (fun v => mkLit v false)) with
        | none => simp [hc] at h
        | some r =>
          obtain ⟨S2, b⟩ := r
          simp only [hc, Option.some.injEq, Prod.mk.injEq] at h
          obtain ⟨rfl, rfl, rfl, rfl⟩ := h
          obtain ⟨a, b, hsub, ha, hb, hS⟩ := clausify_amo_vars_false _ _ _ hc
          exact ⟨hlev, rfl, rfl, rfl, a, b, hsub.trans (List.filter_sublist _), ha, hb, hS⟩
      · right
        obtain ⟨h1, h2, h3, rfl, rfl, rfl⟩ := propagateTail_false _ _ _ _ _ _ _ h
        refine ⟨hcl, rfl, h1, h2, h3, rfl, rfl, rfl, ?_⟩
        intro v hv ht
        simp [liveSet, List.mem_filter, hv, constFalse_of_true S v ht]
    · right
      rw [propagateTheory_above0 o S T conflict hcl hlev] at h
      obtain ⟨h1, h2, h3, rfl, rfl, rfl⟩ := propagateTail_false _ _ _ _ _ _ _ h
      exact ⟨hcl, rfl, h1, h2, h3, rfl, rfl, rfl, fun v hv _ => hv⟩

/-- Witness of C8: the set {1, 2, 3} with 1 and 2 recorded true, at decision level 1:
`propagateTheory` returns false, and the second alternative of C8 holds. -/
theorem C8_false_reports_conflict_witness :
    propagateTheory ⟨false, 0, 0⟩ (Solver.atLevel 1 [(1, true), (2, true)])
        AMOTheory.conflicting []
      = some ((Solver.atLevel 1 [(1, true), (2, true)]).theoryPropagated,
          { AMOTheory.conflicting with
              needs_propagation := false,
              stats_conflicts := AMOTheory.conflicting.stats_conflicts + 1 },
          [mkLit 2 true, mkLit 1 true], false)
    ∧ [mkLit 2 true, mkLit 1 true] = [mkLit AMOTheory.conflicting.conflict_var true,
        mkLit AMOTheory.conflicting.true_var true]
    ∧ AMOTheory.conflicting.true_var ≠ AMOTheory.conflicting.conflict_var
    ∧ ∀ v ∈ AMOTheory.conflicting.amo,
        (Solver.atLevel 1 [(1, true), (2, true)]).valueVar v = lbool.l_True →
        v ∈ ({ AMOTheory.conflicting with
                needs_propagation := false,
                stats_conflicts := AMOTheory.conflicting.stats_conflicts + 1 }
              : AMOTheory).amo := by
  have h := C8_false_reports_conflict ⟨false, 0, 0⟩ (Solver.atLevel 1 [(1, true), (2, true)])
    (Solver.atLevel 1 [(1, true), (2, true)]).theoryPropagated AMOTheory.conflicting
    { AMOTheory.conflicting with
        needs_propagation := false,
        stats_conflicts := AMOTheory.conflicting.stats_conflicts + 1 }
    [] [mkLit 2 true, mkLit 1 true] rfl
  rcases h with ⟨h0, _⟩ | ⟨_, h2, _, _, h5, _, _, _, h9⟩
  · exact absurd h0 (by decide)
  · exact ⟨rfl, h2, h5, h9⟩

/-- Counterexample to C9 as stated: with 4 and 5 both true at level 0, the first
`propagateTheory` at decision level 0 returns false and the second one, called right after
it on the state the first one left, returns true. -/
theorem C9_second_call_differs_after_level0_conflict :
    ((propagateTheory ⟨false, 0, 0⟩ (Solver.atLevel 0 [(4, true), (5, true)])
        (AMOTheory.fresh 7 [4, 5, 6]) []).bind fun r1 =>
      (propagateTheory ⟨false, 0, 0⟩ r1.1 r1.2.1 r1.2.2.1).map fun r2 =>
        (r1.2.2.2, r2.2.2.2))
      = some (false, true) := by
  decide

/-- C9 (amended): when `propagateTheory` is called a second time on the state its first call
left (same solver assignment, no `enqueueTheory` in between), the second call fails no
assertion, forces no literal and adds no clause, and it returns the same boolean as the
first call, except when the first call ran the level-0 clausification and returned false:
then the second call returns true. -/
theorem C9_second_propagate_is_silent (o : Options) (S S1 : Solver) (T T1 : AMOTheory)
    (conflict c1 : List Lit) (r1 : Bool)
    (h : propagateTheory o S T conflict = some (S1, T1, c1, r1)) :
    (propagateTheory o S1 T1 c1).map (fun r => (r.1.enqueued, r.1.clauses, r.2.2.2))
      = some (S1.enqueued, S1.clauses,
          if !T.clausified && T1.clausified && !r1 then true else r1) := by
  cases hcl : T.clausified with
  | true =>
    simp only [propagateTheory, hcl, if_true, Option.some.injEq, Prod.mk.injEq] at h
    obtain ⟨rfl, rfl, rfl, rfl⟩ := h
    simp [propagateTheory, hcl, Solver.setTheorySatisfied]
  | false =>
    by_cases hlev : S.decisionLevel = 0
    · rw [propagateTheory_level0 o S T conflict hcl hlev] at h
      split at h
      · cases hc : clausify_amo S.theoryPropagated.setTheorySatisfied
            ((liveSet S T).map (fun v => mkLit v false)) with
        | none => simp [hc] at h
        | some r =>
          obtain ⟨S2, b⟩ := r
          simp only [hc, Option.some.injEq, Prod.mk.injEq] at h
          obtain ⟨rfl, rfl, rfl, rfl⟩ := h
          cases b <;> simp [propagateTheory, Solver.setTheorySatisfied]
      · rename_i hcond
        obtain ⟨ha, hl, hd, _, hamo, hcl1⟩ := propagateTail_frame _ _ _ _ _ _ _ _ h
        have hcl1 : T1.clausified = false := hcl1.trans hcl
        have hamo : T1.amo = liveSet S T := hamo
        have hlev1 : S1.decisionLevel = 0 := hd.trans hlev
        have hcf : S1.constFalse = S.constFalse := Solver.constFalse_congr S S1 ha hl
        have hct : S1.constTrue = S.constTrue := Solver.constTrue_congr S S1 ha hl
        have hls : liveSet S1 T1 = T1.amo := by
          simp only [liveSet, hcf, hamo, List.filter_filter, Bool.and_self]
        have hany : (T1.amo.any fun v => S1.constTrue (mkLit v false)) = false := by
          rw [hct, hamo]
          have h0 : ¬ (T.amo.any fun v => S.constTrue (mkLit v false)) = true :=
            fun hx => hcond (Or.inl hx)
          rw [Bool.not_eq_true, List.any_eq_false] at h0
          rw [List.any_eq_false]
          intro x hx
          exact h0 x (List.mem_of_mem_filter hx)
        have hcond1 : ¬ ((T1.amo.any fun v => S1.constTrue (mkLit v false)) = true ∨
            (liveSet S1 T1).length = 0 ∨
            ((liveSet S1 T1).length : Int) ≤ o.opt_clausify_amo) := by
          rw [hany, hls, hamo]
          intro hx
          rcases hx with hx | hx | hx
          · simp at hx
          · exact hcond (Or.inr (Or.inl hx))
          · exact hcond (Or.inr (Or.inr hx))
        rw [propagateTheory_level0 o S1 T1 c1 hcl1 hlev1, if_neg hcond1, hls]
        show Option.map (fun r => (r.1.enqueued, r.1.clauses, r.2.2.2))
          (propagateTail o S1.theoryPropagated T1 c1) = some (S1.enqueued, S1.clauses, _)
        rw [hcl1]
        simp only [Bool.not_false, Bool.true_and, Bool.false_and, Bool.false_eq_true, if_false,
          Bool.and_false]
        exact propagateTail_again _ _ _ _ _ _ _ _ h S1.theoryPropagated c1
    · rw [propagateTheory_above0 o S T conflict hcl hlev] at h
      obtain ⟨_, _, hd, _, _, hcl1⟩ := propagateTail_frame _ _ _ _ _ _ _ _ h
      have hcl1 : T1.clausified = false := hcl1.trans hcl
      have hlev1 : S1.decisionLevel ≠ 0 := fun hx => hlev (hd.symm.trans hx)
      rw [propagateTheory_above0 o S1 T1 c1 hcl1 hlev1, hcl1]
      simp only [Bool.not_false, Bool.true_and, Bool.false_and, Bool.false_eq_true, if_false,
        Bool.and_false]
      exact propagateTail_again _ _ _ _ _ _ _ _ h S1.theoryPropagated c1

/-- Witness of C9: the set {1, 2, 3} with 1 recorded true and forcing pending, deferred
mode, decision level 1: the first call forces `¬2`, `¬3` and returns true; the second
call forces nothing and returns true. -/
theorem C9_second_propagate_is_silent_witness :
    propagateTheory ⟨false, 0, 0⟩ (Solver.atLevel 1 []) AMOTheory.pending []
      = some (enqueueOthers 1 7 (Solver.atLevel 1 []).theoryPropagated [1, 2, 3],
          { AMOTheory.pending with stats_propagations := 1, needs_propagation := false },
          [], true)
    ∧ (propagateTheory ⟨false, 0, 0⟩
        (enqueueOthers 1 7 (Solver.atLevel 1 []).theoryPropagated [1, 2, 3])
        { AMOTheory.pending with stats_propagations := 1, needs_propagation := false } []).map
        (fun r => (r.1.enqueued, r.1.clauses, r.2.2.2))
      = some ((enqueueOthers 1 7 (Solver.atLevel 1 []).theoryPropagated [1, 2, 3]).enqueued,
          (enqueueOthers 1 7 (Solver.atLevel 1 []).theoryPropagated [1, 2, 3]).clauses,
          if !AMOTheory.pending.clausified &&
              ({ AMOTheory.pending with stats_propagations := 1, needs_propagation := false }
                : AMOTheory).clausified && !true then true else true) :=
  ⟨rfl, C9_second_propagate_is_silent ⟨false, 0, 0⟩ (Solver.atLevel 1 [])
    (enqueueOthers 1 7 (Solver.atLevel 1 []).theoryPropagated [1, 2, 3])
    AMOTheory.pending
    { AMOTheory.pending with stats_propagations := 1, needs_propagation := false }
    [] [] true rfl⟩

/-- C10: from the no-true-variable state of a non-clausified instance (no conflict variable,
no pending flag), `enqueueTheory(+v)`, optionally followed by `propagateTheory` at a
decision level above 0, and then `undecideTheory(+v)` fail no assertion and leave a state
`T1` whose `true_var`, `conflict_var` and pending flag (and set and `clausified` flag) are
those before the enqueue; and enqueuing `+v` again on `T1` and propagating, from any solver
state at a level above 0, forces exactly the literals `X` that the first round forces. -/
theorem C10_undo_then_redo (o : Options) (S : Solver) (T : AMOTheory) (v : Var)
    (conflict : List Lit) (withPropagate : Bool)
    (hcl : T.clausified = false) (htv : T.true_var = var_Undef)
    (hcv : T.conflict_var = var_Undef) (hnp : T.needs_propagation = false)
    (hlev : 0 < S.decisionLevel) :
    ∃ (T1 : AMOTheory) (X : List (Lit × CRef)),
      ((enqueueTheory o S T (mkLit v false)).bind fun r1 =>
        (if withPropagate then (propagateTheory o r1.1 r1.2 conflict).map (fun r => r.2.1)
          else some r1.2).bind fun T2 => undecideTheory T2 (mkLit v false)) = some T1
      ∧ T1.true_var = T.true_var ∧ T1.conflict_var = T.conflict_var
      ∧ T1.needs_propagation = T.needs_propagation
      ∧ T1.amo = T.amo ∧ T1.clausified = T.clausified
      ∧ ((enqueueTheory o S T (mkLit v false)).bind fun r1 =>
          (propagateTheory o r1.1 r1.2 conflict).map fun r => (r.1.enqueued, r.2.2.2))
          = some (S.enqueued ++ X, true)
      ∧ ∀ (S2 : Solver) (c2 : List Lit), 0 < S2.decisionLevel →
          ((enqueueTheory o S2 T1 (mkLit v false)).bind fun r1 =>
            (propagateTheory o r1.1 r1.2 c2).map fun r => (r.1.enqueued, r.2.2.2))
            = some (S2.enqueued ++ X, true) := by
  have hne : S.decisionLevel ≠ 0 := by omega
  have hne2 : ∀ S2 : Solver, 0 < S2.decisionLevel → S2.decisionLevel ≠ 0 := by
    intro S2 h
    omega
  by_cases hv : v = var_Undef
  · cases he : o.opt_amo_eager_prop
    · refine ⟨{ T with needs_propagation := false, true_var := var_Undef }, [],
        ?_, htv.symm, rfl, hnp.symm, rfl, rfl, ?_, ?_⟩
      · cases withPropagate <;>
          simp [enqueueTheory, propagateTheory, propagateTail, undecideTheory, hcl, htv, hcv,
            hnp, he, hv, hne]
      · simp [enqueueTheory, propagateTheory, propagateTail, hcl, htv, hcv, hnp, he, hv, hne]
      · intro S2 c2 h2
        simp [enqueueTheory, propagateTheory, propagateTail, hcl, hcv, he, hv, hne2 S2 h2]
    · refine ⟨{ T with stats_propagations := T.stats_propagations + 1,
                       needs_propagation := false, true_var := var_Undef },
        (T.amo.filter (fun w => w ≠ var_Undef)).map
          (fun w => (mkLit w true, T.assign_false_reason)),
        ?_, htv.symm, rfl, hnp.symm, rfl, rfl, ?_, ?_⟩
      · cases withPropagate <;>
          simp [enqueueTheory, propagateTheory, propagateTail, undecideTheory, hcl, htv, hcv,
            hnp, he, hv, hne]
      · simp [enqueueTheory, propagateTheory, propagateTail, hcl, htv, hcv, hnp, he, hv, hne,
          enqueueOthers_enqueued]
      · intro S2 c2 h2
        simp [enqueueTheory, propagateTheory, propagateTail, hcl, hcv, he, hv, hne2 S2 h2,
          enqueueOthers_enqueued]
  · cases he : o.opt_amo_eager_prop
    · cases withPropagate
      · refine ⟨{ T with needs_propagation := false, true_var := var_Undef },
          (T.amo.filter (fun w => w ≠ v)).map (fun w => (mkLit w true, T.assign_false_reason)),
          ?_, htv.symm, rfl, hnp.symm, rfl, rfl, ?_, ?_⟩
        · simp [enqueueTheory, undecideTheory, hcl, htv, hcv, hnp, he, hv]
        · simp [enqueueTheory, propagateTheory, propagateTail, hcl, htv, hcv, hnp, he, hv, hne,
            enqueueOthers_enqueued]
        · intro S2 c2 h2
          simp [enqueueTheory, propagateTheory, propagateTail, hcl, hcv, he, hv, hne2 S2 h2,
            enqueueOthers_enqueued]
      · refine ⟨{ T with stats_propagations := T.stats_propagations + 1,
                         needs_propagation := false, true_var := var_Undef },
          (T.amo.filter (fun w => w ≠ v)).map (fun w => (mkLit w true, T.assign_false_reason)),
          ?_, htv.symm, rfl, hnp.symm, rfl, rfl, ?_, ?_⟩
        · simp [enqueueTheory, propagateTheory, propagateTail, undecideTheory, hcl, htv, hcv,
            hnp, he, hv, hne]
        · simp [enqueueTheory, propagateTheory, propagateTail, hcl, htv, hcv, hnp, he, hv, hne,
            enqueueOthers_enqueued]
        · intro S2 c2 h2
          simp [enqueueTheory, propagateTheory, propagateTail, hcl, hcv, he, hv, hne2 S2 h2,
            enqueueOthers_enqueued]
    · refine ⟨{ T with stats_propagations := T.stats_propagations + 1,
                       needs_propagation := false, true_var := var_Undef },
        (T.amo.filter (fun w => w ≠ v)).map (fun w => (mkLit w true, T.assign_false_reason)),
        ?_, htv.symm, rfl, hnp.symm, rfl, rfl, ?_, ?_⟩
      · cases withPropagate <;>
          simp [enqueueTheory, propagateTheory, propagateTail, undecideTheory, hcl, htv, hcv,
            hnp, he, hv, hne]
      · simp [enqueueTheory, propagateTheory, propagateTail, hcl, htv, hcv, hnp, he, hv, hne,
          enqueueOthers_enqueued]
      · intro S2 c2 h2
        simp [enqueueTheory, propagateTheory, propagateTail, hcl, hcv, he, hv, hne2 S2 h2,
          enqueueOthers_enqueued]

/-- Witness of C10: the fresh set {1, 2, 3}, member 2, deferred mode, decision level 1, with
the `propagateTheory` call between the enqueue and the undo. -/
theorem C10_undo_then_redo_witness :
    ∃ (T1 : AMOTheory) (X : List (Lit × CRef)),
      ((enqueueTheory ⟨false, 0, 0⟩ (Solver.atLevel 1 []) (AMOTheory.fresh 7 [1, 2, 3])
          (mkLit 2 false)).bind fun r1 =>
        (if true then (propagateTheory ⟨false, 0, 0⟩ r1.1 r1.2 []).map (fun r => r.2.1)
          else some r1.2).bind fun T2 => undecideTheory T2 (mkLit 2 false)) = some T1
      ∧ T1.true_var = (AMOTheory.fresh 7 [1, 2, 3]).true_var
      ∧ T1.conflict_var = (AMOTheory.fresh 7 [1, 2, 3]).conflict_var
      ∧ T1.needs_propagation = (AMOTheory.fresh 7 [1, 2, 3]).needs_propagation
      ∧ T1.amo = (AMOTheory.fresh 7 [1, 2, 3]).amo
      ∧ T1.clausified = (AMOTheory.fresh 7 [1, 2, 3]).clausified
      ∧ ((enqueueTheory ⟨false, 0, 0⟩ (Solver.atLevel 1 []) (AMOTheory.fresh 7 [1, 2, 3])
            (mkLit 2 false)).bind fun r1 =>
          (propagateTheory ⟨false, 0, 0⟩ r1.1 r1.2 []).map fun r => (r.1.enqueued, r.2.2.2))
          = some ((Solver.atLevel 1 []).enqueued ++ X, true)
      ∧ ∀ (S2 : Solver) (c2 : List Lit), 0 < S2.decisionLevel →
          ((enqueueTheory ⟨false, 0, 0⟩ S2 T1 (mkLit 2 false)).bind fun r1 =>
            (propagateTheory ⟨false, 0, 0⟩ r1.1 r1.2 c2).map fun r => (r.1.enqueued, r.2.2.2))
            = some (S2.enqueued ++ X, true) :=
  C10_undo_then_redo ⟨false, 0, 0⟩ (Solver.atLevel 1 []) (AMOTheory.fresh 7 [1, 2, 3]) 2 [] true
    rfl rfl rfl rfl (by decide)

/-- Counterexample to C11 as stated: in the state of the set {1, 2, 3} where 1 is recorded
as `true_var` and 2 as `conflict_var`, `undecideTheory(+1)` fails the assertion
`conflict_var==var_Undef` of line 140 instead of clearing `true_var`. -/
theorem C11_undecide_true_var_while_conflicting_fails :
    undecideTheory AMOTheory.conflicting (mkLit 1 false) = none := by
  decide

/-- C11 (amended): `undecideTheory(l)` fails its assertion exactly when `var(l)` is the
recorded `true_var` while `conflict_var` is set; in every other state it returns and does
exactly this: if `var(l)` is `true_var` it clears `true_var` and the pending flag, if
`var(l)` is `conflict_var` it clears `conflict_var`, and every other field, the set and
the `clausified` flag included, is as before. -/
theorem C11_undecideTheory_effect (T : AMOTheory) (l : Lit) :
    undecideTheory T l =
      if l.var = T.true_var ∧ T.conflict_var ≠ var_Undef then none
      else some { T with
        true_var := if l.var = T.true_var then var_Undef else T.true_var,
        needs_propagation := if l.var = T.true_var then false else T.needs_propagation,
        conflict_var := if l.var = T.conflict_var then var_Undef else T.conflict_var } := by
  cases T with
  | mk ti afr amo tmp sp sps ssr sr sc tv cv np cl =>
    simp only [undecideTheory]
    by_cases h1 : l.var = tv <;> by_cases h2 : cv = var_Undef <;>
      by_cases h3 : l.var = cv <;> simp [h1, h2, h3]
    all_goals simp_all

/-- A run of `update` that does not take the early return of lines 106-109 ends with the
cached modification counter equal to the graph's. -/
theorem update_last_modification (g : DynamicGraph) (fw : FloydWarshall)
    (r : FloydWarshall × List StatusCall) (h : fw.update g = some r)
    (hne : fw.last_modification ≠ g.modifications) :
    r.1.last_modification = g.modifications := by
  have hskip : ¬ (fw.last_modification > 0 ∧ g.modifications = fw.last_modification) :=
    fun hx => hne hx.2.symm
  simp only [FloydWarshall.update, hskip, if_false, Option.bind_eq_some] at h
  obtain ⟨fw3, _, dn1, _, dist2, _, dn3, _, calls, _, h⟩ := h
  simp only [Option.some.injEq] at h
  rw [← h]

/-- After `connected(t)` has returned, the cached modification counter equals the graph's. -/
theorem connected_last_modification (g : DynamicGraph) (fw fw1 : FloydWarshall) (t : Int)
    (calls : List StatusCall) (b : Bool) (h : fw.connected g t = some (fw1, calls, b)) :
    fw1.last_modification = g.modifications ∧ vecGet fw1.seen t = some b := by
  simp only [FloydWarshall.connected, Option.bind_eq_some, Option.some.injEq,
    Prod.mk.injEq] at h
  obtain ⟨r, hr, b1, hb, h1, _, h3⟩ := h
  subst h1 h3
  refine ⟨?_, hb⟩
  by_cases hne : fw.last_modification ≠ g.modifications
  · rw [if_pos hne] at hr
    exact update_last_modification g fw r hr hne
  · rw [if_neg hne, Option.some.injEq] at hr
    rw [← hr]
    exact not_not.mp hne

/-- C12: when `connected(t)` (or `distance(t)`) has returned on a graph `g`, whatever its
modification counter, and is called again on the same graph, the second call does not
call `update`: it leaves the whole state as it is (the full-update counter, the distance
and predecessor tables, the cached counters and the history cursor included), makes no
call on a status sink and returns the same answer as the first call. -/
theorem C12_second_query_recomputes_nothing (g : DynamicGraph) (fw : FloydWarshall) (t : Int) :
    (∀ fw1 calls b, fw.connected g t = some (fw1, calls, b) →
        fw1.connected g t = some (fw1, [], b))
    ∧ (∀ fw1 calls d, fw.distance g t = some (fw1, calls, d) →
        fw1.distance g t = some (fw1, [], d)) := by
  have key : ∀ fw1 calls b, fw.connected g t = some (fw1, calls, b) →
      fw1.connected g t = some (fw1, [], b) := by
    intro fw1 calls b h
    obtain ⟨hm, hs⟩ := connected_last_modification g fw fw1 t calls b h
    simp [FloydWarshall.connected, hm, hs]
  refine ⟨key, ?_⟩
  intro fw1 calls d h
  simp only [FloydWarshall.distance, Option.bind_eq_some] at h
  obtain ⟨r, hr, h2⟩ := h
  obtain ⟨fw2, calls2, b⟩ := r
  cases b with
  | false =>
    simp only [Bool.false_eq_true, if_false, Option.some.injEq, Prod.mk.injEq] at h2
    obtain ⟨rfl, _, rfl⟩ := h2
    simp [FloydWarshall.distance, key fw2 calls2 false hr]
  | true =>
    simp only [if_true, Option.some.injEq, Prod.mk.injEq] at h2
    obtain ⟨rfl, _, rfl⟩ := h2
    simp [FloydWarshall.distance, key fw2 calls2 true hr]

/-- Witness of C12: node 2 of the graph `chain`, queried on a new instance with source 0. -/
theorem C12_second_query_recomputes_nothing_witness :
    (((FloydWarshall.new 0).addSource 0 50).bind fun fw =>
      (fw.connected DynamicGraph.chain 2).bind fun r1 =>
        (r1.1.connected DynamicGraph.chain 2).map fun r2 =>
          (r1.1.stats_full_updates, r2.1.stats_full_updates, decide (r2.1 = r1.1), r2.2.1,
            r1.2.2, r2.2.2))
      = some (1, 1, true, [], false, false) := by
  have h := (C12_second_query_recomputes_nothing DynamicGraph.chain
    { FloydWarshall.new 0 with sources := [0], status := [50] } 2).1
  have h1 : FloydWarshall.connected DynamicGraph.chain
      { FloydWarshall.new 0 with sources := [0], status := [50] } 2 ≠ none := by decide
  cases hc : FloydWarshall.connected DynamicGraph.chain
      { FloydWarshall.new 0 with sources := [0], status := [50] } 2 with
  | none => exact absurd hc h1
  | some r =>
    obtain ⟨fw1, calls, b⟩ := r
    have h2 := h fw1 calls b hc
    have hb : b = false := by
      have : (FloydWarshall.connected DynamicGraph.chain
        { FloydWarshall.new 0 with sources := [0], status := [50] } 2).map (fun r => r.2.2)
          = some false := by decide
      rw [hc] at this
      simpa using this
    have hs : fw1.stats_full_updates = 1 := by
      have : (FloydWarshall.connected DynamicGraph.chain
        { FloydWarshall.new 0 with sources := [0], status := [50] } 2).map
          (fun r => r.1.stats_full_updates) = some 1 := by decide
      rw [hc] at this
      simpa using this
    have h0 : (FloydWarshall.new 0).addSource 0 50
        = some { FloydWarshall.new 0 with sources := [0], status := [50] } := by decide
    simp [h0, hc, h2, hb, hs]

/-- C13 (the code at the failing input): `path` has no base case, so no call of it ever
returns a path, whatever the tables and however deep the recursion is allowed to go; on the
graph `chain` with source 0, after `update`, `dist[0][1] = 1` is below `INF = 5` and
`path(0, 1, out)` reads `next[0][1] = -1` and then `dist[0][-1]`, outside the table. -/
theorem C13_path_never_returns :
    (∀ (fw : FloydWarshall) (fuel : Nat) (from_ to_ : Int) (out p : List Int),
        fw.path fuel from_ to_ out ≠ some (some p))
    ∧ (((FloydWarshall.new 0).addSource 0 50).bind fun fw =>
        (fw.update DynamicGraph.chain).map fun r =>
          (tableGet r.1.dist 0 1, r.1.INF, tableGet r.1.next 0 1, r.1.path 10 0 1 []))
        = some (some 1, 5, some (-1), some none) := by
  refine ⟨?_, by decide⟩
  intro fw fuel
  induction fuel with
  | zero =>
    intro from_ to_ out p
    simp [FloydWarshall.path]
  | succ n ih =>
    intro from_ to_ out p
    simp only [FloydWarshall.path]
    split
    · simp
    · split
      · split
        · simp
        · split
          · simp
          · simp
          · exact ih _ _ _ p
      · simp

/-- C14 (the code at the failing input): on a new instance with source 0, `update` on the
two-node graph whose only edge 0→1 is disabled writes `dist[0][1] = 1`, while on the graph
without that edge it leaves `dist[0][1] = 0`: the loop of lines 123-127 seeds every edge of
`all_edges` and the two distance tables differ. -/
theorem C14_disabled_edge_is_seeded :
    (((FloydWarshall.new 0).addSource 0 50).bind fun fw =>
      (fw.update DynamicGraph.disabledEdge).bind fun r1 =>
        (fw.update DynamicGraph.absentEdge).map fun r2 =>
          (tableGet r1.1.dist 0 1, tableGet r2.1.dist 0 1, decide (r1.1.dist = r2.1.dist)))
      = some (some 1, some 0, false) := by
  decide

/-- C16 (the code at the failing input): an instance constructed with report polarity 1
(reachable only) has `reportPolarity = 0`, and its `update` on `chain` with source 0 calls
`setReachable(u, false)` for each of the four nodes. -/
theorem C16_polarity_argument_is_dropped :
    ((FloydWarshall.new 1).reportPolarity,
      ((FloydWarshall.new 1).addSource 0 50).bind fun fw =>
        (fw.update DynamicGraph.chain).map fun r => r.2)
      = (0, some [⟨50, 0, false⟩, ⟨50, 1, false⟩, ⟨50, 2, false⟩, ⟨50, 3, false⟩]) := by
  decide

/-- Counterexample to C17 as stated: on a clausified instance with set {1, 2}, where 2 is
false at level 0, `propagateTheory` at decision level 0 leaves the set {1, 2}: the member 2
is not removed. -/
theorem C17_clausified_set_keeps_false_member :
    (Solver.atLevel 0 [(2, false)]).constFalse (mkLit 2 false) = true
    ∧ (propagateTheory ⟨false, 0, 0⟩ (Solver.atLevel 0 [(2, false)])
        { AMOTheory.fresh 7 [1, 2] with clausified := true } []).map (fun r => r.2.1.amo)
      = some [1, 2] := by
  decide

/-- C17 (amended): whenever `propagateTheory` returns, for an instance that is not
clausified and a call at decision level 0 the set after the call is the set before it with
exactly the members that are false at level 0 removed, the others in their order; for a
clausified instance, or at another decision level, the set is unchanged; in every case the
set after the call is a subsequence of the set before it. -/
theorem C17_set_only_shrinks (o : Options) (S S1 : Solver) (T T1 : AMOTheory)
    (conflict c1 : List Lit) (r : Bool)
    (h : propagateTheory o S T conflict = some (S1, T1, c1, r)) :
    (T.clausified = false → S.decisionLevel = 0 →
        T1.amo = T.amo.filter (fun v => !S.constFalse (mkLit v false)))
    ∧ (T.clausified = true ∨ S.decisionLevel ≠ 0 → T1.amo = T.amo)
    ∧ List.Sublist T1.amo T.amo := by
  cases hcl : T.clausified with
  | true =>
    simp only [propagateTheory, hcl, if_true, Option.some.injEq, Prod.mk.injEq] at h
    obtain ⟨_, rfl, _, _⟩ := h
    exact ⟨fun hx => absurd hx (by simp), fun _ => rfl, List.Sublist.refl _⟩
  | false =>
    by_cases hlev : S.decisionLevel = 0
    · have hamo : T1.amo = liveSet S T := by
        rw [propagateTheory_level0 o S T conflict hcl hlev] at h
        split at h
        · cases hc : clausify_amo S.theoryPropagated.setTheorySatisfied
              ((liveSet S T).map (fun v => mkLit v false)) with
          | none => simp [hc] at h
          | some x =>
            obtain ⟨S2, b⟩ := x
            simp only [hc, Option.some.injEq, Prod.mk.injEq] at h
            obtain ⟨_, rfl, _, _⟩ := h
            rfl
        · exact (propagateTail_frame _ _ _ _ _ _ _ _ h).2.2.2.2.1
      refine ⟨fun _ _ => hamo, fun hx => ?_, ?_⟩
      · rcases hx with hx | hx
        · simp at hx
        · exact absurd hlev hx
      · rw [hamo]
        exact List.filter_sublist _
    · rw [propagateTheory_above0 o S T conflict hcl hlev] at h
      have hamo : T1.amo = T.amo := (propagateTail_frame _ _ _ _ _ _ _ _ h).2.2.2.2.1
      exact ⟨fun _ hx => absurd hx hlev, fun _ => hamo, hamo ▸ List.Sublist.refl _⟩

/-- Witness of C17: the set {1, 2, 3} with 2 false at level 0 and threshold 0, at decision
level 0: the set becomes {1, 3}. -/
theorem C17_set_only_shrinks_witness :
    propagateTheory ⟨false, 0, 0⟩ (Solver.atLevel 0 [(2, false)]) (AMOTheory.fresh 7 [1, 2, 3]) []
      = some ((Solver.atLevel 0 [(2, false)]).theoryPropagated,
          { AMOTheory.fresh 7 [1, 2, 3] with amo := [1, 3] }, [], true)
    ∧ ({ AMOTheory.fresh 7 [1, 2, 3] with amo := [1, 3] } : AMOTheory).amo
        = (AMOTheory.fresh 7 [1, 2, 3]).amo.filter
            (fun v => !(Solver.atLevel 0 [(2, false)]).constFalse (mkLit v false))
    ∧ List.Sublist ({ AMOTheory.fresh 7 [1, 2, 3] with amo := [1, 3] } : AMOTheory).amo
        (AMOTheory.fresh 7 [1, 2, 3]).amo := by
  have h := C17_set_only_shrinks ⟨false, 0, 0⟩ (Solver.atLevel 0 [(2, false)])
    (Solver.atLevel 0 [(2, false)]).theoryPropagated (AMOTheory.fresh 7 [1, 2, 3])
    { AMOTheory.fresh 7 [1, 2, 3] with amo := [1, 3] } [] [] true rfl
  exact ⟨rfl, h.1 rfl rfl, h.2.2⟩

/-- A run of `update` that does not take the early return of lines 106-109 counts one full
update and no skipped update. -/
theorem update_not_skipped (g : DynamicGraph) (fw : FloydWarshall)
    (r : FloydWarshall × List StatusCall) (h : fw.update g = some r)
    (hne : fw.last_modification ≠ g.modifications) :
    r.1.stats_skipped_updates = fw.stats_skipped_updates
    ∧ r.1.stats_full_updates = fw.stats_full_updates + 1 := by
  have hskip : ¬ (fw.last_modification > 0 ∧ g.modifications = fw.last_modification) :=
    fun hx => hne hx.2.symm
  simp only [FloydWarshall.update, hskip, if_false, Option.bind_eq_some] at h
  obtain ⟨fw3, h3, dn1, _, dist2, _, dn3, _, calls, _, h⟩ := h
  simp only [Option.some.injEq] at h
  simp only [FloydWarshall.setNodes, Option.bind_eq_some, Option.some.injEq] at h3
  obtain ⟨d2, _, n2, _, h3⟩ := h3
  rw [← h, ← h3]
  by_cases hd : fw.last_deletion = g.deletions <;> simp [hd]

/-- C18: `addSource(s, sink)` fails its assertion exactly when `s` is already among the
sources (nothing is registered then); otherwise it appends `s` to the sources and `sink` to
the sinks, at the same position when the two lists were equally long, leaves the earlier
entries and every other field as they were except the cached modification, addition and
deletion counters, which become -1; and on every graph (whose modification counter is not
negative) the next `connected(t)` then calls `update`, which does not take its early
return. -/
theorem C18_addSource_registers_once (fw : FloydWarshall) (s : Int) (sink : StatusRef) :
    (fw.addSource s sink = none ↔ s ∈ fw.sources)
    ∧ (s ∉ fw.sources →
        fw.addSource s sink =
          some { fw with sources := fw.sources ++ [s], status := fw.status ++ [sink],
                         last_modification := -1, last_addition := -1, last_deletion := -1 })
    ∧ (fw.sources.length = fw.status.length →
        (fw.sources ++ [s]).get? fw.sources.length = some s
        ∧ (fw.status ++ [sink]).get? fw.sources.length = some sink)
    ∧ (∀ i, i < fw.sources.length → (fw.sources ++ [s]).get? i = fw.sources.get? i)
    ∧ (∀ i, i < fw.status.length → (fw.status ++ [sink]).get? i = fw.status.get? i)
    ∧ (∀ fw1 g t, fw.addSource s sink = some fw1 → 0 ≤ g.modifications →
        fw1.connected g t
          = (fw1.update g).bind (fun r => (vecGet r.1.seen t).bind fun b => some (r.1, r.2, b))
        ∧ ∀ r, fw1.update g = some r →
            r.1.stats_full_updates = fw1.stats_full_updates + 1
            ∧ r.1.stats_skipped_updates = fw1.stats_skipped_updates) := by
  refine ⟨?_, ?_, ?_, ?_, ?_, ?_⟩
  · by_cases h : s ∈ fw.sources <;> simp [FloydWarshall.addSource, h]
  · intro h
    simp [FloydWarshall.addSource, h]
  · intro h
    constructor
    · simp
    · rw [h]
      simp
  · intro i hi
    simp [List.getElem?_append_left hi]
  · intro i hi
    simp [List.getElem?_append_left hi]
  · intro fw1 g t h hg
    have hlm : fw1.last_modification = -1 := by
      by_cases hs : s ∈ fw.sources
      · simp [FloydWarshall.addSource, hs] at h
      · simp only [FloydWarshall.addSource, hs, not_false_eq_true, if_true,
          Option.some.injEq] at h
        rw [← h]
    have hne : fw1.last_modification ≠ g.modifications := by
      rw [hlm]
      omega
    refine ⟨by simp [FloydWarshall.connected, hne], ?_⟩
    intro r hr
    exact ⟨(update_not_skipped g fw1 r hr hne).2, (update_not_skipped g fw1 r hr hne).1⟩

/-- Witness of C18: source 0 with sink 50 on a new instance, then queried on `chain`. -/
theorem C18_addSource_registers_once_witness :
    (FloydWarshall.new 0).addSource 0 50
      = some { FloydWarshall.new 0 with sources := [0], status := [50] }
    ∧ (FloydWarshall.connected DynamicGraph.chain
          { FloydWarshall.new 0 with sources := [0], status := [50] } 2
        = (FloydWarshall.update DynamicGraph.chain
            { FloydWarshall.new 0 with sources := [0], status := [50] }).bind
            (fun r => (vecGet r.1.seen 2).bind fun b => some (r.1, r.2, b))) :=
  ⟨(C18_addSource_registers_once (FloydWarshall.new 0) 0 50).2.1 (by decide),
   ((C18_addSource_registers_once (FloydWarshall.new 0) 0 50).2.2.2.2.2
      { FloydWarshall.new 0 with sources := [0], status := [50] } DynamicGraph.chain 2
      (by decide) (by decide)).1⟩

/-- C19 (the code at the failing input): after `update` on `chain` (four nodes, edges 0→1
and 1→2) with source 0, `INF` is 5, yet `dist[0][3]` is 0 although no path leads from 0 to
the isolated node 3, and `dist[1][2]` is 0 although the shortest path from 1 to 2 is the
edge 1→2 of length 1: the table is padded with 0, never with `INF`. -/
theorem C19_distance_table_is_not_shortest_paths :
    (((FloydWarshall.new 0).addSource 0 50).bind fun fw =>
      (fw.update DynamicGraph.chain).map fun r =>
        (r.1.INF, tableGet r.1.dist 0 3, tableGet r.1.dist 1 2, tableGet r.1.dist 0 1))
      = some (5, some 0, some 0, some 1) := by
  decide

/-- At decision level 0 `clausify_amo` fails no assertion, and all it does to the solver is
to add clauses. -/
theorem clausify_amo_level0 (S : Solver) (lits : List Lit) (hlev : S.decisionLevel = 0) :
    ∃ (b : Bool) (X : List (List Lit)),
      clausify_amo S lits = some ({ S with clauses := S.clauses ++ X }, b) := by
  unfold clausify_amo
  simp only [hlev, if_true]
  cases hs : clausify_scan S lits [] lit_Undef with
  | error e =>
    obtain ⟨c, l⟩ := e
    exact ⟨false, [[c.neg, l.neg]], rfl⟩
  | ok x =>
    obtain ⟨set, ctl⟩ := x
    by_cases hc : ctl = lit_Undef
    · exact ⟨true, pairsFrom set, by simp [hc, addPairs_eq]⟩
    · exact ⟨true, set.map (fun s => [ctl.neg, s.neg]), by simp [hc, addAgainst_eq]⟩

/-- Lines 215-235 do not report the theory satisfied. -/
theorem propagateTail_satisfied_calls (o : Options) (S S1 : Solver) (T T1 : AMOTheory)
    (conflict c1 : List Lit) (r1 : Bool)
    (h : propagateTail o S T conflict = some (S1, T1, c1, r1)) :
    S1.satisfied_calls = S.satisfied_calls := by
  unfold propagateTail at h
  by_cases h1 : T.conflict_var = var_Undef
  · by_cases h2 : T.true_var ≠ var_Undef ∧ T.needs_propagation = true
    · cases he : o.opt_amo_eager_prop
      · simp only [ne_eq, h1, not_true_eq_false, if_false, h2, and_self, if_true, he,
          Bool.not_false, Option.some.injEq, Prod.mk.injEq] at h
        obtain ⟨rfl, _, _, _⟩ := h
        exact (enqueueOthers_frame T.true_var T.assign_false_reason T.amo S).2.2.2.2.1
      · simp [h1, h2, he] at h
    · simp only [ne_eq, h1, not_true_eq_false, if_false, h2, Option.some.injEq,
        Prod.mk.injEq] at h
      obtain ⟨rfl, _, _, _⟩ := h
      rfl
  · by_cases h2 : T.true_var = var_Undef
    · simp [h1, h2] at h
    · by_cases h3 : T.true_var = T.conflict_var
      · simp [h1, h2, h3] at h
      · simp only [ne_eq, h1, not_false_eq_true, if_true, h2, h3, Option.some.injEq,
          Prod.mk.injEq] at h
        obtain ⟨rfl, _, _, _⟩ := h
        rfl

/-- Counterexample to C20 as stated: on the set {1, 2, 3} with threshold 0, where 1 and 2 are
both true at level 0, `propagateTheory` at decision level 0 sets the `clausified` flag and
reports the theory satisfied, although two members (not exactly one) are true at level 0,
the live set has three members and its size is above the threshold. -/
theorem C20_two_true_members_also_clausify :
    ((AMOTheory.fresh 7 [1, 2, 3]).amo.filter (fun v =>
        (Solver.atLevel 0 [(1, true), (2, true)]).constTrue (mkLit v false))).length = 2
    ∧ (propagateTheory ⟨false, 0, 0⟩ (Solver.atLevel 0 [(1, true), (2, true)])
        (AMOTheory.fresh 7 [1, 2, 3]) []).map
        (fun r => (r.2.1.clausified, r.1.satisfied_calls, r.2.1.amo.length, r.1.clauses))
      = some (true, 1, 3, [[mkLit 1 true, mkLit 2 true]]) := by
  decide

/-- C20 (amended): for a non-clausified instance, `propagateTheory` clausifies exactly when it
is called at decision level 0 and at least one member is true at level 0, or the set without
its members false at level 0 is empty, or the size of that set is at most the threshold
`opt_clausify_amo`. In that case it fails no assertion, sets the `clausified` flag on the
shrunk set, reports the theory satisfied once and only adds clauses to the solver; in every
other case (every decision level other than 0 included) a call that returns leaves the flag
clear, reports nothing and adds no clause. -/
theorem C20_clausifies_exactly_when (o : Options) (S : Solver) (T : AMOTheory)
    (conflict : List Lit) (hcl : T.clausified = false) :
    ((S.decisionLevel = 0 ∧
        ((T.amo.any (fun v => S.constTrue (mkLit v false))) = true ∨
          (liveSet S T).length = 0 ∨ ((liveSet S T).length : Int) ≤ o.opt_clausify_amo)) →
      ∃ (b : Bool) (X : List (List Lit)),
        propagateTheory o S T conflict =
          some ({ S with propagated_calls := S.propagated_calls + 1,
                         satisfied_calls := S.satisfied_calls + 1,
                         clauses := S.clauses ++ X },
            { T with amo := liveSet S T, clausified := true }, conflict, b))
    ∧ (¬ (S.decisionLevel = 0 ∧
        ((T.amo.any (fun v => S.constTrue (mkLit v false))) = true ∨
          (liveSet S T).length = 0 ∨ ((liveSet S T).length : Int) ≤ o.opt_clausify_amo)) →
      ∀ S1 T1 c1 r, propagateTheory o S T conflict = some (S1, T1, c1, r) →
        T1.clausified = false ∧ S1.satisfied_calls = S.satisfied_calls ∧
          S1.clauses = S.clauses) := by
  constructor
  · rintro ⟨hlev, hcond⟩
    obtain ⟨b, X, hX⟩ := clausify_amo_level0 S.theoryPropagated.setTheorySatisfied
      ((liveSet S T).map (fun v => mkLit v false)) hlev
    refine ⟨b, X, ?_⟩
    rw [propagateTheory_level0 o S T conflict hcl hlev, if_pos hcond, hX]
    rfl
  · intro hn S1 T1 c1 r h
    by_cases hlev : S.decisionLevel = 0
    · have hcond : ¬ ((T.amo.any (fun v => S.constTrue (mkLit v false))) = true ∨
          (liveSet S T).length = 0 ∨ ((liveSet S T).length : Int) ≤ o.opt_clausify_amo) :=
        fun hx => hn ⟨hlev, hx⟩
      rw [propagateTheory_level0 o S T conflict hcl hlev, if_neg hcond] at h
      obtain ⟨_, _, _, hc, _, hf⟩ := propagateTail_frame _ _ _ _ _ _ _ _ h
      have hs := propagateTail_satisfied_calls _ _ _ _ _ _ _ _ h
      exact ⟨hf.trans hcl, hs, hc⟩
    · rw [propagateTheory_above0 o S T conflict hcl hlev] at h
      obtain ⟨_, _, _, hc, _, hf⟩ := propagateTail_frame _ _ _ _ _ _ _ _ h
      have hs := propagateTail_satisfied_calls _ _ _ _ _ _ _ _ h
      exact ⟨hf.trans hcl, hs, hc⟩

/-- Witness of C20: the set {1, 2, 3}, all unassigned, with threshold 3 at decision level 0:
the call clausifies with the three pairwise clauses. -/
theorem C20_clausifies_exactly_when_witness :
    ∃ (b : Bool) (X : List (List Lit)),
      propagateTheory ⟨false, 3, 0⟩ (Solver.atLevel 0 []) (AMOTheory.fresh 7 [1, 2, 3]) [] =
        some ({ Solver.atLevel 0 [] with
                  propagated_calls := (Solver.atLevel 0 []).propagated_calls + 1,
                  satisfied_calls := (Solver.atLevel 0 []).satisfied_calls + 1,
                  clauses := (Solver.atLevel 0 []).clauses ++ X },
          { AMOTheory.fresh 7 [1, 2, 3] with
              amo := liveSet (Solver.atLevel 0 []) (AMOTheory.fresh 7 [1, 2, 3]),
              clausified := true }, [], b) :=
  (C20_clausifies_exactly_when ⟨false, 3, 0⟩ (Solver.atLevel 0 []) (AMOTheory.fresh 7 [1, 2, 3])
    [] rfl).1 ⟨rfl, Or.inr (Or.inr (by decide))⟩

/-- C21 (the code at the failing input): `update` looks the sink up at `status[s]` with `s`
the node number of the source, not its position. With the single source 5 (sink 50) on a
graph with six nodes the lookup `status[5]` is outside the one-entry sink list; with the
same source and a sink list of six entries the reports go to its entry number 5; and with
the sources 1 and 0 registered in this order on sinks 50 and 51, the reports for the first
source go to sink 51 and those for the second to sink 50. -/
theorem C21_sink_is_looked_up_by_node_number :
    (((FloydWarshall.new 0).addSource 5 50).map fun fw =>
        (fw.sources, fw.status, vecGet fw.status 5)) = some ([5], [50], none)
    ∧ (((FloydWarshall.new 0).addSource 5 50).bind fun fw =>
        fw.update DynamicGraph.sixNodes) = none
    ∧ (((FloydWarshall.new 0).addSource 5 50).bind fun fw =>
        (FloydWarshall.update DynamicGraph.sixNodes
          { fw with status := [50, 51, 52, 53, 54, 55] }).map fun r => r.2)
      = some [⟨55, 0, false⟩, ⟨55, 1, false⟩, ⟨55, 2, false⟩, ⟨55, 3, false⟩,
          ⟨55, 4, false⟩, ⟨55, 5, false⟩]
    ∧ (((FloydWarshall.new 0).addSource 1 50).bind fun fw0 =>
        (fw0.addSource 0 51).bind fun fw =>
          (fw.update DynamicGraph.chain).map fun r => (fw.sources, fw.status, r.2))
      = some ([1, 0], [50, 51],
          [⟨51, 0, false⟩, ⟨51, 1, false⟩, ⟨51, 2, false⟩, ⟨51, 3, false⟩,
           ⟨50, 0, false⟩, ⟨50, 1, false⟩, ⟨50, 2, false⟩, ⟨50, 3, false⟩]) := by
  refine ⟨by decide, by decide, by decide, by decide⟩

/-- A loop that adds 1 for every index with the property `P` and 0 for the others ends with
the start value plus the number of indices with `P`. -/
theorem foldl_count {T : Type} [LinearOrderedRing T] (P : Nat → Prop) [DecidablePred P]
    (l : List Nat) (init : T) :
    l.foldl (fun sum i => sum + (if P i then 1 else 0)) init
      = init + ((l.countP (fun i => decide (P i)) : Nat) : T) := by
  induction l generalizing init with
  | nil => simp
  | cons i l ih =>
    rw [List.foldl_cons, ih, List.countP_cons]
    by_cases h : P i
    · simp [h, add_assoc, add_comm]
    · simp [h]

/-- The sum of `computeWinding` is the number of positions whose cross product with the
previous point (cyclically) is positive. -/
theorem windingSum_eq_count {T : Type} [LinearOrderedRing T] (points : List (Point2 T)) :
    windingSum points
      = (((List.range points.length).countP (fun i =>
          decide (cross2d (prevPoint points i) (points.getD i ⟨-1, 0, 0⟩) > 0)) : Nat) : T) := by
  unfold windingSum
  rw [foldl_count (fun i => cross2d (prevPoint points i) (points.getD i ⟨-1, 0, 0⟩) > 0)]
  simp

/-- C23: for every list of points with coordinates in a linearly ordered ring (the integers
and the rationals among them), the empty list included, the sum of `computeWinding` is
never negative, `computeWinding` returns CLOCKWISE when some position `i` has a positive
cross product `cross2d(prev, points[i])` with its cyclic predecessor and NEITHER otherwise,
so never COUNTER_CLOCKWISE, and `isClockwise` returns true. -/
theorem C23_computeWinding_never_counter_clockwise {T : Type} [LinearOrderedRing T]
    (points : List (Point2 T)) :
    0 ≤ windingSum points
    ∧ computeWinding points =
        (if ∃ i, i < points.length ∧
            cross2d (prevPoint points i) (points.getD i ⟨-1, 0, 0⟩) > 0
          then some Winding.CLOCKWISE else some Winding.NEITHER)
    ∧ computeWinding points ≠ some Winding.COUNTER_CLOCKWISE
    ∧ computeWinding ([] : List (Point2 T)) = some Winding.NEITHER
    ∧ isClockwise points = some true := by
  have hsum := windingSum_eq_count points
  have hnn : 0 ≤ windingSum points := by
    rw [hsum]
    exact Nat.cast_nonneg _
  have hpos : windingSum points > 0 ↔ ∃ i, i < points.length ∧
      cross2d (prevPoint points i) (points.getD i ⟨-1, 0, 0⟩) > 0 := by
    rw [hsum, gt_iff_lt, Nat.cast_pos, List.countP_pos_iff]
    simp [List.mem_range]
  have hcw : computeWinding points =
      (if ∃ i, i < points.length ∧
          cross2d (prevPoint points i) (points.getD i ⟨-1, 0, 0⟩) > 0
        then some Winding.CLOCKWISE else some Winding.NEITHER) := by
    by_cases h : ∃ i, i < points.length ∧
        cross2d (prevPoint points i) (points.getD i ⟨-1, 0, 0⟩) > 0
    · simp only [computeWinding, hpos.mpr h, if_true, h]
    · have h0 : ¬ windingSum points > 0 := fun hx => h (hpos.mp hx)
      have h1 : ¬ windingSum points < 0 := not_lt.mpr hnn
      have h2 : windingSum points = 0 := le_antisymm (not_lt.mp h0) hnn
      simp only [computeWinding, h0, h1, if_false, h]
      simp [h2]
  have hne : computeWinding points ≠ some Winding.COUNTER_CLOCKWISE := by
    rw [hcw]
    split <;> simp
  refine ⟨hnn, hcw, hne, ?_, ?_⟩
  · simp [computeWinding, windingSum]
  · unfold isClockwise
    rw [hcw]
    split <;> simp

/-- The invariant only looks at `true_var`, `conflict_var`, the pending flag and the
`clausified` flag, which may only go from clear to set. -/
theorem AMOInv_congr (o : Options) (T T1 : AMOTheory) (tr : List Lit)
    (htv : T1.true_var = T.true_var) (hcv : T1.conflict_var = T.conflict_var)
    (hnp : T1.needs_propagation = true → T.needs_propagation = true)
    (hcl : T1.clausified = false → T.clausified = false)
    (hinv : AMOInv o T tr) : AMOInv o T1 tr := by
  obtain ⟨h1, h2, h3, h4, h5, h6⟩ := hinv
  unfold AMOInv
  rw [htv, hcv]
  refine ⟨h1, fun hx => h2 (hnp hx), h3, ?_, h5, fun hx => h6 (hcl hx)⟩
  intro hx
  obtain ⟨ha, hb, l1, l2, hc, hd, he⟩ := h4 hx
  exact ⟨ha, hb, l1, l2, hc, hd, fun hy => he (hcl hy)⟩

/-- `enqueueTheory` of a literal that is already on the trail changes nothing and fails no
assertion. -/
theorem AMOInv_enqueue_again (o : Options) (S : Solver) (T : AMOTheory) (tr : List Lit)
    (l : Lit) (hinv : AMOInv o T tr) (hl : l ∈ tr) : enqueueTheory o S T l = some (S, T) := by
  obtain ⟨_, _, _, _, h5, h6⟩ := hinv
  unfold enqueueTheory
  by_cases hc : T.clausified = true
  · simp [hc]
  · by_cases hcvu : T.conflict_var = var_Undef
    · cases hs : l.sign with
      | true => simp [hc, hcvu, hs]
      | false =>
        have hv : l.var = T.true_var := h6 (by simpa using hc) hcvu l hl hs
        have hne : T.true_var ≠ var_Undef := by
          rw [← hv]
          exact h5 l hl
        simp [hc, hcvu, hs, hne, hv]
    · simp [hc, hcvu]

/-- `enqueueTheory` of a literal of a variable new to the trail fails no assertion and keeps
the invariant for the trail with the literal on top. -/
theorem AMOInv_enqueue (o : Options) (S : Solver) (T : AMOTheory) (tr : List Lit) (l : Lit)
    (hinv : AMOInv o T tr) (hl : l.var ≠ var_Undef) (hfresh : ∀ p ∈ tr, p.var ≠ l.var) :
    ∃ S1 T1, enqueueTheory o S T l = some (S1, T1) ∧ AMOInv o T1 (l :: tr) := by
  obtain ⟨hnd0, hnp, htv0, hcv0, h50, h6⟩ := hinv
  have hnd : ((l :: tr).map Lit.var).Nodup := by
    rw [List.map_cons, List.nodup_cons]
    refine ⟨?_, hnd0⟩
    intro hmem
    obtain ⟨p, hp, hpv⟩ := List.mem_map.mp hmem
    exact hfresh p hp hpv
  have h5 : ∀ p ∈ l :: tr, p.var ≠ var_Undef := by
    intro p hp
    rcases List.mem_cons.mp hp with hx | hx
    · rw [hx]
      exact hl
    · exact h50 p hx
  have htv : T.true_var ≠ var_Undef → mkLit T.true_var false ∈ l :: tr :=
    fun h => List.mem_cons_of_mem _ (htv0 h)
  have hcv : T.conflict_var ≠ var_Undef →
      T.true_var ≠ var_Undef ∧ T.true_var ≠ T.conflict_var ∧
        ∃ l1 l2, l :: tr = l1 ++ mkLit T.conflict_var false :: l2 ∧
          mkLit T.true_var false ∈ l2 ∧
          (T.clausified = false → ∀ p ∈ l2, p.sign = false → p.var = T.true_var) := by
    intro h
    obtain ⟨h1, h2, l1, l2, h3, h4, h7⟩ := hcv0 h
    exact ⟨h1, h2, l :: l1, l2, by rw [h3, List.cons_append], h4, h7⟩
  unfold enqueueTheory
  by_cases hc : T.clausified = true
  · refine ⟨S, T, by simp [hc], hnd, hnp, htv, hcv, h5, ?_⟩
    intro hx
    rw [hc] at hx
    exact absurd hx (by decide)
  · have hcf : T.clausified = false := by simpa using hc
    by_cases hcvu : T.conflict_var = var_Undef
    · cases hs : l.sign with
      | true =>
        refine ⟨S, T, by simp [hc, hcvu, hs], hnd, hnp, htv, hcv, h5, ?_⟩
        intro _ _ p hp hps
        rcases List.mem_cons.mp hp with hx | hx
        · rw [hx, hs] at hps
          exact absurd hps (by decide)
        · exact h6 hcf hcvu p hx hps
      | false =>
        have hlit : mkLit l.var false = l := by
          cases l with
          | mk v sg =>
            simp only at hs
            simp [mkLit, hs]
        by_cases htvu : T.true_var = var_Undef
        · have hnpf : T.needs_propagation = false := by
            cases hx : T.needs_propagation with
            | false => rfl
            | true => exact absurd htvu (hnp hx).1
          -- no positive literal is on the trail yet
          have hnone : ∀ p ∈ l :: tr, p.sign = false → p.var = l.var := by
            intro p hp hps
            rcases List.mem_cons.mp hp with hx | hx
            · rw [hx]
            · exact absurd ((h6 hcf hcvu p hx hps).trans htvu) (h50 p hx)
          cases he : o.opt_amo_eager_prop with
          | true =>
            refine ⟨enqueueOthers l.var T.assign_false_reason S T.amo,
              { T with true_var := l.var, stats_propagations := T.stats_propagations + 1 },
              by simp [hc, hcvu, hs, htvu, hnpf, he], hnd, ?_, ?_, ?_, h5, ?_⟩
            · intro hx
              rw [hnpf] at hx
              exact absurd hx (by decide)
            · intro _
              show mkLit l.var false ∈ l :: tr
              rw [hlit]
              exact List.mem_cons_self _ _
            · intro hx
              exact absurd hcvu hx
            · intro _ _ p hp hps
              exact hnone p hp hps
          | false =>
            refine ⟨S, { T with true_var := l.var, needs_propagation := true },
              by simp [hc, hcvu, hs, htvu, hnpf, he], hnd, ?_, ?_, ?_, h5, ?_⟩
            · intro _
              exact ⟨hl, he⟩
            · intro _
              show mkLit l.var false ∈ l :: tr
              rw [hlit]
              exact List.mem_cons_self _ _
            · intro hx
              exact absurd hcvu hx
            · intro _ _ p hp hps
              exact hnone p hp hps
        · have hall : ∀ p ∈ tr, p.sign = false → p.var = T.true_var :=
            fun p hp hps => h6 hcf hcvu p hp hps
          by_cases hv : l.var = T.true_var
          · refine ⟨S, T, by simp [hc, hcvu, hs, htvu, hv], hnd, hnp, htv, hcv, h5, ?_⟩
            intro _ _ p hp hps
            rcases List.mem_cons.mp hp with hx | hx
            · rw [hx]
              exact hv
            · exact hall p hx hps
          · refine ⟨S, { T with conflict_var := l.var }, by simp [hc, hcvu, hs, htvu, hv],
              hnd, hnp, htv, ?_, h5, ?_⟩
            · intro _
              refine ⟨htvu, fun hx => hv hx.symm, [], tr, ?_, htv0 htvu, fun _ => hall⟩
              show l :: tr = [] ++ mkLit l.var false :: tr
              rw [hlit, List.nil_append]
            · intro _ hx
              exact absurd hx hl
    · refine ⟨S, T, by simp [hc, hcvu], hnd, hnp, htv, hcv, h5, ?_⟩
      intro _ hx
      exact absurd hx hcvu

/-- Lines 215-235 fail no assertion when a recorded conflict variable comes with a different
recorded true variable and a pending propagation only exists in deferred mode. -/
theorem propagateTail_total (o : Options) (S : Solver) (T : AMOTheory) (conflict : List Lit)
    (h1 : T.conflict_var ≠ var_Undef →
      T.true_var ≠ var_Undef ∧ T.true_var ≠ T.conflict_var)
    (h2 : T.needs_propagation = true → o.opt_amo_eager_prop = false) :
    ∃ S1 T1 c1 r, propagateTail o S T conflict = some (S1, T1, c1, r) ∧
      T1.true_var = T.true_var ∧ T1.conflict_var = T.conflict_var ∧
      (T1.needs_propagation = true → T.needs_propagation = true) ∧
      T1.clausified = T.clausified := by
  unfold propagateTail
  by_cases hc : T.conflict_var = var_Undef
  · by_cases hp : T.true_var ≠ var_Undef ∧ T.needs_propagation = true
    · have he := h2 hp.2
      refine ⟨enqueueOthers T.true_var T.assign_false_reason S T.amo,
        { T with stats_propagations := T.stats_propagations + 1, needs_propagation := false },
        conflict, true, ?_, rfl, rfl, ?_, rfl⟩
      · rw [if_neg (not_not.mpr hc), if_pos hp]
        simp [he]
      · intro hx
        simp at hx
    · refine ⟨S, T, conflict, true, ?_, rfl, rfl, fun hx => hx, rfl⟩
      rw [if_neg (not_not.mpr hc), if_neg hp]
  · obtain ⟨ha, hb⟩ := h1 hc
    refine ⟨S, { T with needs_propagation := false, stats_conflicts := T.stats_conflicts + 1 },
      [mkLit T.conflict_var true, mkLit T.true_var true], false, ?_, rfl, rfl, ?_, rfl⟩
    · rw [if_pos hc, if_pos ha, if_pos hb]
    · intro hx
      simp at hx

/-- `propagateTheory` fails no assertion in a state with the invariant, and keeps it. -/
theorem AMOInv_propagate (o : Options) (S : Solver) (T : AMOTheory) (tr : List Lit)
    (conflict : List Lit) (hinv : AMOInv o T tr) :
    ∃ S1 T1 c1 r, propagateTheory o S T conflict = some (S1, T1, c1, r) ∧ AMOInv o T1 tr := by
  have h1 : T.conflict_var ≠ var_Undef →
      T.true_var ≠ var_Undef ∧ T.true_var ≠ T.conflict_var :=
    fun hx => ⟨(hinv.2.2.2.1 hx).1, (hinv.2.2.2.1 hx).2.1⟩
  have h2 : T.needs_propagation = true → o.opt_amo_eager_prop = false :=
    fun hx => (hinv.2.1 hx).2
  cases hcl : T.clausified with
  | true => exact ⟨_, T, _, _, by simp only [propagateTheory, hcl, if_true]; rfl, hinv⟩
  | false =>
    by_cases hlev : S.decisionLevel = 0
    · rw [propagateTheory_level0 o S T conflict hcl hlev]
      split
      · obtain ⟨b, X, hX⟩ := clausify_amo_level0 S.theoryPropagated.setTheorySatisfied
          ((liveSet S T).map (fun v => mkLit v false)) hlev
        rw [hX]
        refine ⟨_, _, _, _, rfl, AMOInv_congr o T _ tr rfl rfl (fun hx => hx) ?_ hinv⟩
        intro hx
        simp at hx
      · obtain ⟨S1, T1, c1, r, hr, ha, hb, hc, hd⟩ := propagateTail_total o S.theoryPropagated
          { T with amo := liveSet S T } conflict h1 h2
        exact ⟨S1, T1, c1, r, hr,
          AMOInv_congr o T T1 tr ha hb hc (fun hx => (hd.symm.trans hx)) hinv⟩
    · rw [propagateTheory_above0 o S T conflict hcl hlev]
      obtain ⟨S1, T1, c1, r, hr, ha, hb, hc, hd⟩ :=
        propagateTail_total o S.theoryPropagated T conflict h1 h2
      exact ⟨S1, T1, c1, r, hr,
        AMOInv_congr o T T1 tr ha hb hc (fun hx => (hd.symm.trans hx)) hinv⟩

/-- `undecideTheory` of the literal of `true_var` when no conflict variable is recorded. -/
theorem undecideTheory_true_var (T : AMOTheory) (l : Lit) (h1 : l.var = T.true_var)
    (h2 : T.conflict_var = var_Undef) :
    undecideTheory T l =
      some { T with needs_propagation := false, true_var := var_Undef,
                    conflict_var := var_Undef } := by
  cases T with
  | mk ti afr amo tmp sp sps ssr sr sc tv cv np cl =>
    simp only at h1 h2
    subst h2
    by_cases h3 : l.var = var_Undef <;> simp [undecideTheory, h1, h3]

/-- `undecideTheory` of the literal of `conflict_var`. -/
theorem undecideTheory_conflict_var (T : AMOTheory) (l : Lit) (h1 : l.var ≠ T.true_var)
    (h2 : l.var = T.conflict_var) :
    undecideTheory T l = some { T with conflict_var := var_Undef } := by
  unfold undecideTheory
  simp only [h1, if_false, Option.some_bind]
  simp only [h2, if_true]

/-- `undecideTheory` of a literal of another variable. -/
theorem undecideTheory_other (T : AMOTheory) (l : Lit) (h1 : l.var ≠ T.true_var)
    (h2 : l.var ≠ T.conflict_var) : undecideTheory T l = some T := by
  simp [undecideTheory, h1, h2]

/-- `undecideTheory` of the most recent literal of the trail fails no assertion in a state
with the invariant, and the state it leaves has the invariant for the rest of the trail. -/
theorem AMOInv_undecide (o : Options) (T : AMOTheory) (tr : List Lit) (l : Lit)
    (hinv : AMOInv o T (l :: tr)) :
    ∃ T1, undecideTheory T l = some T1 ∧ AMOInv o T1 tr := by
  obtain ⟨hnd, hnp, htv, hcv, h50, h6⟩ := hinv
  rw [List.map_cons, List.nodup_cons] at hnd
  obtain ⟨hl, hnd⟩ := hnd
  have hnot : ∀ p ∈ tr, p.var ≠ l.var := by
    intro p hp hx
    exact hl (List.mem_map.mpr ⟨p, hp, hx⟩)
  have h5 : ∀ p ∈ tr, p.var ≠ var_Undef := fun p hp => h50 p (List.mem_cons_of_mem _ hp)
  -- the literal of `true_var` stays on the trail when another literal is taken off
  have hkeep : l.var ≠ T.true_var → T.true_var ≠ var_Undef → mkLit T.true_var false ∈ tr := by
    intro hne hx
    rcases List.mem_cons.mp (htv hx) with h | h
    · exfalso
      apply hne
      rw [← h]
      rfl
    · exact h
  by_cases h1 : l.var = T.true_var
  · have hcu : T.conflict_var = var_Undef := by
      by_contra hx
      obtain ⟨_, hne, l1, l2, heq, hmem, _⟩ := hcv hx
      cases l1 with
      | nil =>
        simp only [List.nil_append, List.cons.injEq] at heq
        apply hne
        rw [← h1, heq.1]
        rfl
      | cons a l1 =>
        simp only [List.cons_append, List.cons.injEq] at heq
        have hin : mkLit T.true_var false ∈ tr := by
          rw [heq.2]
          exact List.mem_append_right _ (List.mem_cons_of_mem _ hmem)
        exact hnot _ hin h1.symm
    refine ⟨{ T with needs_propagation := false, true_var := var_Undef,
                     conflict_var := var_Undef }, undecideTheory_true_var T l h1 hcu, hnd,
      ?_, ?_, ?_, h5, ?_⟩
    · intro hx
      simp at hx
    · intro hx
      exact absurd rfl hx
    · intro hx
      exact absurd rfl hx
    · intro hcl _ p hp hps
      exact absurd ((h6 hcl hcu p (List.mem_cons_of_mem _ hp) hps).trans h1.symm) (hnot p hp)
  · by_cases h2 : l.var = T.conflict_var
    · have hcvne : T.conflict_var ≠ var_Undef := by
        rw [← h2]
        exact h50 l (List.mem_cons_self _ _)
      obtain ⟨_, _, l1, l2, heq, _, hall⟩ := hcv hcvne
      have htr : tr = l2 := by
        cases l1 with
        | nil =>
          simp only [List.nil_append, List.cons.injEq] at heq
          exact heq.2
        | cons a l1 =>
          simp only [List.cons_append, List.cons.injEq] at heq
          have hin : mkLit T.conflict_var false ∈ tr := by
            rw [heq.2]
            exact List.mem_append_right _ (List.mem_cons_self _ _)
          exact absurd h2.symm (hnot _ hin)
      refine ⟨{ T with conflict_var := var_Undef }, undecideTheory_conflict_var T l h1 h2,
        hnd, hnp, hkeep h1, ?_, h5, ?_⟩
      · intro hx
        exact absurd rfl hx
      · intro hcl _ p hp hps
        rw [htr] at hp
        exact hall hcl p hp hps
    · refine ⟨T, undecideTheory_other T l h1 h2, hnd, hnp, hkeep h1, ?_, h5, ?_⟩
      · intro hx
        obtain ⟨ha, hb, l1, l2, heq, hmem, hall⟩ := hcv hx
        refine ⟨ha, hb, ?_⟩
        cases l1 with
        | nil =>
          simp only [List.nil_append, List.cons.injEq] at heq
          exfalso
          apply h2
          rw [heq.1]
          rfl
        | cons a l1 =>
          simp only [List.cons_append, List.cons.injEq] at heq
          exact ⟨l1, l2, heq.2, hmem, hall⟩
      · intro hcl hcu p hp hps
        exact h6 hcl hcu p (List.mem_cons_of_mem _ hp) hps

/-- A sequence of calls that follows the trail, started in a state with the invariant, fails
no assertion and ends in a state with the invariant. -/
theorem AMOInv_run (o : Options) (calls : List AMOCall) :
    ∀ (T : AMOTheory) (tr : List Lit), AMOInv o T tr → trailProtocol tr calls = true →
      ∃ T1 tr1, runCalls o T tr calls = some (T1, tr1) ∧ AMOInv o T1 tr1 := by
  induction calls with
  | nil =>
    intro T tr hinv _
    exact ⟨T, tr, by simp [runCalls], hinv⟩
  | cons c cs ih =>
    intro T tr hinv hp
    cases c with
    | enqueue S l =>
      simp only [trailProtocol, Bool.and_eq_true, Bool.or_eq_true, decide_eq_true_eq,
        List.all_eq_true] at hp
      obtain ⟨⟨hl, hor⟩, hrest⟩ := hp
      by_cases hmem : l ∈ tr
      · rw [if_pos hmem] at hrest
        have he := AMOInv_enqueue_again o S T tr l hinv hmem
        obtain ⟨T2, tr2, hr, hinv2⟩ := ih T tr hinv hrest
        exact ⟨T2, tr2, by simp only [runCalls, he, Option.some_bind, if_pos hmem, hr], hinv2⟩
      · rw [if_neg hmem] at hrest
        have hfresh : ∀ p ∈ tr, p.var ≠ l.var := by
          rcases hor with hx | hx
          · exact absurd hx hmem
          · exact hx
        obtain ⟨S1, T1, he, hinv1⟩ := AMOInv_enqueue o S T tr l hinv hl hfresh
        obtain ⟨T2, tr2, hr, hinv2⟩ := ih T1 (l :: tr) hinv1 hrest
        exact ⟨T2, tr2, by simp only [runCalls, he, Option.some_bind, if_neg hmem, hr], hinv2⟩
    | propagate S conflict =>
      simp only [trailProtocol] at hp
      obtain ⟨S1, T1, c1, r, he, hinv1⟩ := AMOInv_propagate o S T tr conflict hinv
      obtain ⟨T2, tr2, hr, hinv2⟩ := ih T1 tr hinv1 hp
      exact ⟨T2, tr2, by simp only [runCalls, he, Option.some_bind, hr], hinv2⟩
    | undecide =>
      cases tr with
      | nil => simp [trailProtocol] at hp
      | cons l tr =>
        simp only [trailProtocol] at hp
        obtain ⟨T1, he, hinv1⟩ := AMOInv_undecide o T tr l hinv
        obtain ⟨T2, tr2, hr, hinv2⟩ := ih T1 tr hinv1 hp
        exact ⟨T2, tr2, by simp only [runCalls, he, Option.some_bind, hr], hinv2⟩

/-- C22 as stated fails: in deferred mode on the set {1, 2, 3}, `+1` is enqueued, then `+2`
(recorded as the conflict variable), then `+1` once more (lines 165-166 do nothing). Undoing
in reverse order of the enqueueing starts with `+1`, and `undecideTheory` of `+1` fails the
assertion of line 140, the conflict variable being still set. -/
theorem C22_undo_of_reenqueued_literal_fails :
    (((enqueueTheory ⟨false, 0, 0⟩ (Solver.atLevel 1 []) (AMOTheory.fresh 7 [1, 2, 3])
          (mkLit 1 false)).bind fun r1 =>
        (enqueueTheory ⟨false, 0, 0⟩ (Solver.atLevel 1 []) r1.2 (mkLit 2 false)).bind fun r2 =>
          (enqueueTheory ⟨false, 0, 0⟩ (Solver.atLevel 1 []) r2.2 (mkLit 1 false)).map
            fun r3 => (r3.2.true_var, r3.2.conflict_var, r3.2.needs_propagation))
        = some (1, 2, true))
    ∧ (((enqueueTheory ⟨false, 0, 0⟩ (Solver.atLevel 1 []) (AMOTheory.fresh 7 [1, 2, 3])
          (mkLit 1 false)).bind fun r1 =>
        (enqueueTheory ⟨false, 0, 0⟩ (Solver.atLevel 1 []) r1.2 (mkLit 2 false)).bind fun r2 =>
          (enqueueTheory ⟨false, 0, 0⟩ (Solver.atLevel 1 []) r2.2 (mkLit 1 false)).bind
            fun r3 => undecideTheory r3.2 (mkLit 1 false)).isNone = true) := by
  constructor <;> decide

/-- C22 (amended): from the state after construction, every sequence of `enqueueTheory`,
`propagateTheory` and `undecideTheory` calls that follows a trail holding at most one
literal for each variable (a literal enqueued is either put on the trail, its variable
having no literal there, or is already on the trail and is not put there again; the literal
undone is the most recent one on the trail and is taken off) fails no assertion of the three
functions, and the state it reaches is one of the three states of the state machine: a set
`conflict_var` comes with a set `true_var` different from it, and a set pending flag comes
with a set `true_var`. -/
theorem C22_state_machine_invariant (o : Options) (marker : CRef) (vars : List Var)
    (calls : List AMOCall) (hp : trailProtocol [] calls = true) :
    ∃ T tr, runCalls o (AMOTheory.fresh marker vars) [] calls = some (T, tr)
      ∧ (T.conflict_var ≠ var_Undef →
          T.true_var ≠ var_Undef ∧ T.true_var ≠ T.conflict_var)
      ∧ (T.needs_propagation = true → T.true_var ≠ var_Undef) := by
  have h0 : AMOInv o (AMOTheory.fresh marker vars) [] := by
    refine ⟨by simp, ?_, ?_, ?_, ?_, ?_⟩
    · intro hx
      simp [AMOTheory.fresh] at hx
    · intro hx
      exact absurd rfl hx
    · intro hx
      exact absurd rfl hx
    · intro p hp
      simp at hp
    · intro _ _ p hp
      simp at hp
  obtain ⟨T, tr, hr, hinv⟩ := AMOInv_run o calls (AMOTheory.fresh marker vars) [] h0 hp
  exact ⟨T, tr, hr, fun hx => ⟨(hinv.2.2.2.1 hx).1, (hinv.2.2.2.1 hx).2.1⟩,
    fun hx => (hinv.2.1 hx).1⟩

/-- Witness of C22 (amended): deferred mode, the set {1, 2, 3}: `+1` and `+2` are enqueued,
`+1` is notified once more, a conflict is propagated at decision level 1, then `+2` and `+1`
are undone. -/
theorem C22_state_machine_invariant_witness :
    trailProtocol []
        [AMOCall.enqueue (Solver.atLevel 1 []) (mkLit 1 false),
         AMOCall.enqueue (Solver.atLevel 1 []) (mkLit 2 false),
         AMOCall.enqueue (Solver.atLevel 1 []) (mkLit 1 false),
         AMOCall.propagate (Solver.atLevel 1 []) [],
         AMOCall.undecide, AMOCall.undecide] = true
    ∧ ∃ T tr, runCalls ⟨false, 0, 0⟩ (AMOTheory.fresh 7 [1, 2, 3]) []
        [AMOCall.enqueue (Solver.atLevel 1 []) (mkLit 1 false),
         AMOCall.enqueue (Solver.atLevel 1 []) (mkLit 2 false),
         AMOCall.enqueue (Solver.atLevel 1 []) (mkLit 1 false),
         AMOCall.propagate (Solver.atLevel 1 []) [],
         AMOCall.undecide, AMOCall.undecide] = some (T, tr)
      ∧ (T.conflict_var ≠ var_Undef →
          T.true_var ≠ var_Undef ∧ T.true_var ≠ T.conflict_var)
      ∧ (T.needs_propagation = true → T.true_var ≠ var_Undef) :=
  ⟨by decide, C22_state_machine_invariant ⟨false, 0, 0⟩ 7 [1, 2, 3]
    [AMOCall.enqueue (Solver.atLevel 1 []) (mkLit 1 false),
     AMOCall.enqueue (Solver.atLevel 1 []) (mkLit 2 false),
     AMOCall.enqueue (Solver.atLevel 1 []) (mkLit 1 false),
     AMOCall.propagate (Solver.atLevel 1 []) [],
     AMOCall.undecide, AMOCall.undecide] (by decide)⟩

end Monosat
